import Mathlib

/-!
# sinfo option processing (`src/sinfo/opts.c`)

A shallow embedding of the format compiler (`_parse_format`, `_get_prefix`,
`_parse_token`), of the choice of the built-in format in `parse_command_line`
and of the state-list compiler (`_build_state_list`,
`_build_all_states_list`, `_parse_state`), followed by the properties proved
about them.

Conventions of the embedding:
* a C string is the list of characters before its terminating NUL; a `char *`
  that may be `NULL` is an `Option`;
* reading `s[i]` at `i = strlen(s)` yields the terminator;
* `int` arithmetic wraps to 32 bits in two's complement, `uint16_t` stores
  are taken modulo `2^16`;
* `exit(n)` is the outcome `Outcome.exited n`, which carries what was printed;
* the parts of the global `params` record that the functions touch are passed
  in and returned explicitly;
* `_build_state_list` is given a second time over a heap of character
  buffers, where `xstrdup` allocates and `strtok_r` writes terminators, and
  is shown to agree with the version on strings.
-/

namespace Sinfo

/-! ## C strings and the libc functions used -/

/-- A C string, given by the characters that precede its terminator. -/
abbrev CStr := List Char

/-- The string terminator. -/
def NUL : Char := Char.ofNat 0

/-- The character `s[i]`; at `i = strlen s` this is the terminator. -/
def charAt (s : CStr) (i : Nat) : Char := s.getD i NUL

/-- The libc `strchr(s, c)` for `c` other than NUL: offset of the first
occurrence of `c` in `s`, or `none` for a `NULL` result. -/
def strchr : CStr → Char → Option Nat
  | [], _ => none
  | x :: xs, c => if x = c then some 0 else (strchr xs c).map (· + 1)

/-- Membership of a character in a delimiter set. -/
def isDelim (delim : CStr) (c : Char) : Bool := delim.contains c

/-- The libc `strtok_r`, applied to the string `s` that is scanned (the first
argument on the first call, the string at `*saveptr` on later calls). Leading
delimiters are skipped; if nothing is left the result is `NULL`. Otherwise the
token runs up to the next delimiter, which is overwritten by a terminator, and
`*saveptr` is left just after it (or on the terminator of `s`). The pair is
the returned token and the string at the new `*saveptr`. -/
def strtok_r (s : CStr) (delim : CStr) : Option CStr × CStr :=
  let s1 := s.dropWhile (isDelim delim)
  if s1 = [] then (none, [])
  else
    (some (s1.takeWhile (fun c => !isDelim delim c)),
     (s1.dropWhile (fun c => !isDelim delim c)).drop 1)

/-- The libc `tolower` in the C locale. -/
def tolower (c : Char) : Char := c.toLower

/-- The libc `strcasecmp`: negative, zero or positive as the first string is
less than, equal to or greater than the second, ignoring ASCII letter case.
Only the sign of the result is specified, so `-1`, `0`, `1` are returned. -/
def strcasecmp : CStr → CStr → Int
  | [], [] => 0
  | [], _ :: _ => -1
  | _ :: _, [] => 1
  | a :: as, b :: bs =>
    if tolower a = tolower b then strcasecmp as bs
    else if (tolower a).toNat < (tolower b).toNat then -1 else 1

/-- Wrap an integer to the range of a 32-bit two's complement `int`. -/
def wrap32 (x : Int) : Int := (x + 2147483648) % 4294967296 - 2147483648

/-- How a call ends: it returns a value, the process is terminated by
`exit(status)` with the given text on standard error, or the iteration bound
of the embedding was reached (shown below never to happen). -/
inductive Outcome (α : Type) where
  | returned (a : α)
  | exited (status : Nat) (stderr : List CStr)
  | out_of_fuel
  deriving DecidableEq, Repr

/-- Return code `SLURM_SUCCESS`. -/
def SLURM_SUCCESS : Int := 0

/-- Return code `SLURM_ERROR`. -/
def SLURM_ERROR : Int := -1

/-! ## Data model of the format compiler -/

/-- The print routine a format entry is bound to: one per `format_add_*`
macro used by `_parse_format`; `literal` is the entry of `format_add_prefix`. -/
inductive FieldKind where
  | avail | nodes_ai | cpus | disk | nodes | features | nodes_aiot | groups
  | share | time | memory | node_list | partition | root | reason | size
  | state_compact | state_long | weight | literal
  deriving DecidableEq, Repr

/-- One entry of `params.format_list`. -/
structure ColumnSpec where
  kind : FieldKind
  width : Int
  right_justify : Bool
  suffix : CStr
  deriving DecidableEq, Repr

/-- The record `params.match_flags`. -/
structure MatchFlags where
  avail_flag : Bool
  features_flag : Bool
  groups_flag : Bool
  job_size_flag : Bool
  max_time_flag : Bool
  partition_flag : Bool
  reason_flag : Bool
  root_flag : Bool
  share_flag : Bool
  state_flag : Bool
  deriving DecidableEq, Repr

/-- All ten flags false. -/
def MatchFlags.none : MatchFlags :=
  ⟨false, false, false, false, false, false, false, false, false, false⟩

/-- The state `_parse_format` works on: `params.format_list`,
`params.match_flags`, and the diagnostics written to standard error (one
entry per `fprintf`). -/
structure Params where
  format_list : List ColumnSpec
  match_flags : MatchFlags
  stderr : List CStr
  deriving DecidableEq, Repr

/-- Modelled from the spec: the `format_add_*` macros of `src/sinfo/print.h`,
which append one entry (print routine, width, justification, suffix) to the
end of the format list. -/
def format_add (list : List ColumnSpec) (kind : FieldKind) (width : Int)
    (right_justify : Bool) (suffix : CStr) : List ColumnSpec :=
  list ++ [⟨kind, width, right_justify, suffix⟩]

/-! ## `_get_prefix` and `_parse_token` -/

/-- Result of `_get_prefix`: the returned string (`none` for `NULL`) and the
content of the argument buffer afterwards. -/
structure PrefixResult where
  ret : Option CStr
  token : Option CStr
  deriving DecidableEq, Repr

/-- The function `_get_prefix`: copies out what precedes the first `%` of
`token` and removes it from `token` in place. -/
def _get_prefix (token : Option CStr) : PrefixResult :=
  match token with
  | Option.none => ⟨Option.none, Option.none⟩
  | some tok =>
    match strchr tok '%' with
    | Option.none => ⟨some tok, some tok⟩          -- everything is prefix
    | some pos =>
      if pos = 0 then ⟨Option.none, some tok⟩      -- no prefix
      else ⟨some (tok.take pos), some (tok.drop pos)⟩

/-- The digit loop of `_parse_token`, run on the characters from `token[i]`
on: returns the accumulated `field_size` and the index after the digits. -/
def scan_digits : CStr → Int → Nat → Int × Nat
  | [], field_size, i => (field_size, i)
  | c :: cs, field_size, i =>
    if '0' ≤ c ∧ c ≤ '9' then
      scan_digits cs (wrap32 (field_size * 10 + ((c.toNat : Int) - 48))) (i + 1)
    else (field_size, i)

/-- The outputs of `_parse_token`, and the index `next` from which the suffix
is copied (the value of `i` at `xstrdup(&token[i])`). The suffix is `none`
when the copy starts past the terminator of the token: what is copied then
is not part of the token but whatever follows it in memory. -/
structure TokenParts where
  field : Char
  field_size : Int
  right_justify : Bool
  suffix : Option CStr
  next : Nat
  deriving DecidableEq, Repr

/-- The function `_parse_token`. The suffix is the string that starts at
`token[next]`; it lies inside the token when `next ≤ strlen token`. When the
field character read is the terminator itself, `next` is `strlen token + 1`
and the C code copies from one position past the terminator, outside the
token: the suffix is `none` then. -/
def _parse_token (token : CStr) : TokenParts :=
  let right_justify := charAt token 0 = '.'
  let i := if charAt token 0 = '.' then 1 else 0
  let r := scan_digits (token.drop i) 0 i
  let field := charAt token r.2
  let i := r.2 + 1
  ⟨field, r.1, right_justify,
    if i ≤ token.length then some (token.drop i) else Option.none, i⟩

/-! ## `_parse_format` -/

/-- The diagnostic of the last branch of the field dispatch. -/
def invalid_format_msg (c : Char) : CStr :=
  "Invalid node format specification: ".toList ++ [c] ++ "\n".toList

/-- The diagnostic printed for a `NULL` format. -/
def lacks_specification_msg : CStr := "Format option lacks specification\n".toList

/-- Body of the `while (token)` loop of `_parse_format` up to the dispatch on
`field[0]`: decompose the token, then set the match flag and append the
entry that belong to the field letter, or print the diagnostic. The suffix
is used only in the branches of the field letters, where it lies inside the
token (`parse_token_suffix_inside`). -/
def parse_format_token (token : CStr) (p : Params) : Params :=
  let t := _parse_token token
  let add := fun (k : FieldKind) =>
    format_add p.format_list k t.field_size t.right_justify (t.suffix.getD [])
  if t.field = 'a' then
    { p with match_flags := { p.match_flags with avail_flag := true },
             format_list := add FieldKind.avail }
  else if t.field = 'A' then { p with format_list := add FieldKind.nodes_ai }
  else if t.field = 'c' then { p with format_list := add FieldKind.cpus }
  else if t.field = 'd' then { p with format_list := add FieldKind.disk }
  else if t.field = 'D' then { p with format_list := add FieldKind.nodes }
  else if t.field = 'f' then
    { p with match_flags := { p.match_flags with features_flag := true },
             format_list := add FieldKind.features }
  else if t.field = 'F' then { p with format_list := add FieldKind.nodes_aiot }
  else if t.field = 'g' then
    { p with match_flags := { p.match_flags with groups_flag := true },
             format_list := add FieldKind.groups }
  else if t.field = 'h' then
    { p with match_flags := { p.match_flags with share_flag := true },
             format_list := add FieldKind.share }
  else if t.field = 'l' then
    { p with match_flags := { p.match_flags with max_time_flag := true },
             format_list := add FieldKind.time }
  else if t.field = 'm' then { p with format_list := add FieldKind.memory }
  else if t.field = 'N' then { p with format_list := add FieldKind.node_list }
  else if t.field = 'P' then
    { p with match_flags := { p.match_flags with partition_flag := true },
             format_list := add FieldKind.partition }
  else if t.field = 'r' then
    { p with match_flags := { p.match_flags with root_flag := true },
             format_list := add FieldKind.root }
  else if t.field = 'R' then
    { p with match_flags := { p.match_flags with reason_flag := true },
             format_list := add FieldKind.reason }
  else if t.field = 's' then
    { p with match_flags := { p.match_flags with job_size_flag := true },
             format_list := add FieldKind.size }
  else if t.field = 't' then
    { p with match_flags := { p.match_flags with state_flag := true },
             format_list := add FieldKind.state_compact }
  else if t.field = 'T' then
    { p with match_flags := { p.match_flags with state_flag := true },
             format_list := add FieldKind.state_long }
  else if t.field = 'w' then { p with format_list := add FieldKind.weight }
  else { p with stderr := p.stderr ++ [invalid_format_msg t.field] }

/-- The `while (token)` loop of `_parse_format`: `token` is the current token
(`none` for `NULL`), `tmp_char` the string at the save pointer of `strtok_r`.
The first argument bounds the number of iterations. -/
def parse_format_loop : Nat → Option CStr → CStr → Params → Outcome Params
  | _, Option.none, _, p => Outcome.returned p
  | 0, some _, _, _ => Outcome.out_of_fuel
  | fuel + 1, some token, tmp_char, p =>
    let p1 := parse_format_token token p
    let nxt := strtok_r tmp_char ['%']
    parse_format_loop fuel nxt.1 nxt.2 p1

/-- What `_parse_format` leaves behind when it returns: its return code, the
updated `params`, and the content of the `format` buffer, which
`_get_prefix` rewrites in place. -/
structure FormatResult where
  rc : Int
  params : Params
  format : CStr
  deriving DecidableEq, Repr

/-- The function `_parse_format`, run on `format` with the current `params`. -/
def _parse_format (format : Option CStr) (p : Params) : Outcome FormatResult :=
  match format with
  | Option.none => Outcome.exited 1 (p.stderr ++ [lacks_specification_msg])
  | some fmt =>
    let list : List ColumnSpec := []
    let g := _get_prefix (some fmt)
    let format1 := g.token.getD fmt
    let list := match g.ret with
      | some pfx => format_add list FieldKind.literal 0 false pfx
      | Option.none => list
    let tmp_format := format1
    let first := strtok_r tmp_format ['%']
    let cur := if first.1.isSome ∧ charAt format1 0 ≠ '%' then   -- toss header
        strtok_r first.2 ['%'] else first
    match parse_format_loop (tmp_format.length + 1) cur.1 cur.2
        { p with format_list := list } with
    | Outcome.returned p1 => Outcome.returned ⟨SLURM_SUCCESS, p1, format1⟩
    | Outcome.exited n e => Outcome.exited n e
    | Outcome.out_of_fuel => Outcome.out_of_fuel

/-- The `params` state at program start as far as `_parse_format` is
concerned: no format list, no flag set, nothing printed. -/
def Params.init : Params := ⟨[], MatchFlags.none, []⟩

/-! ## The format that `parse_command_line` compiles -/

/-- The built-in format that `parse_command_line` assigns to `params.format`
when it is still `NULL` after the options and the environment were read. -/
def builtin_format (summarize node_flag long_output : Bool) : CStr :=
  if summarize then "%9P %.5a %.9l %.15F  %N".toList
  else if node_flag then
    if long_output then
      ("%N %.5D %.9P %.11T %.4c " ++ "%.6m %.8d %.6w %.8f %20R").toList
    else "%N %.5D %.9P %6t".toList
  else
    if long_output then
      ("%9P %.5a %.9l %.8s %.4r %.5h " ++ "%.10g %.5D %.11T %N").toList
    else "%9P %.5a %.9l %.5D %.6t %N".toList

/-- The value of `params.format` that `parse_command_line` passes to
`_parse_format`: the format of the user or the environment, or else the
built-in one. -/
def default_format (format : Option CStr) (summarize node_flag long_output : Bool) :
    Option CStr :=
  match format with
  | Option.none => some (builtin_format summarize node_flag long_output)
  | some f => some f

/-! ## The state-list compiler -/

/-- The declarations of `slurm.h` that the state functions use: the sentinel
`NODE_STATE_END` of the node state enumeration and the two name tables
`node_state_string` and `node_state_string_compact`. They are parameters of
the embedding. -/
structure NodeStates where
  NODE_STATE_END : Nat
  node_state_string : Nat → CStr
  node_state_string_compact : Nat → CStr

/-- A store into a `uint16_t`. -/
def to_uint16 (i : Nat) : Nat := i % 65536

/-- The function `_build_all_states_list`: the loop appends `(uint16_t) i`
for `i = 0, ..., NODE_STATE_END - 1`. -/
def _build_all_states_list (ns : NodeStates) : List Nat :=
  (List.range ns.NODE_STATE_END).foldl (fun my_list i => my_list ++ [to_uint16 i]) []

/-- The scanning loop of `_parse_state` with `n` iterations left at index `i`:
the index of the first state whose verbose or compact name matches. -/
def parse_state_scan (ns : NodeStates) (str : CStr) : Nat → Nat → Option Nat
  | 0, _ => Option.none
  | n + 1, i =>
    if strcasecmp (ns.node_state_string i) str = 0 then some i
    else if strcasecmp (ns.node_state_string_compact i) str = 0 then some i
    else parse_state_scan ns str n (i + 1)

/-- The text `state_names` that `_parse_state` builds on failure: the verbose
names of all states, joined by commas. -/
def state_names (ns : NodeStates) : CStr :=
  (List.range' 1 (ns.NODE_STATE_END - 1)).foldl
    (fun acc i => acc ++ ",".toList ++ ns.node_state_string i) (ns.node_state_string 0)

/-- Result of `_parse_state`: return code, content of `*states` afterwards,
and the lines printed. -/
structure ParseStateResult where
  rc : Int
  states : Nat
  stderr : List CStr
  deriving DecidableEq, Repr

/-- The function `_parse_state`; `states` is the content of `*states` on
entry. -/
def _parse_state (ns : NodeStates) (str : CStr) (states : Nat) : ParseStateResult :=
  match parse_state_scan ns str ns.NODE_STATE_END 0 with
  | some i => ⟨SLURM_SUCCESS, to_uint16 i, []⟩
  | Option.none =>
    ⟨SLURM_ERROR, states,
      ["Invalid node state specified: ".toList ++ str ++ "\n".toList,
       "Valid node states include: ".toList ++ state_names ns ++ "\n".toList]⟩

/-- The `while (state)` loop of `_build_state_list`: `state` is the current
token, `tmp_char` the string at the save pointer of `strtok_r`. The first
argument bounds the number of iterations. -/
def build_state_loop (ns : NodeStates) :
    Nat → Option CStr → CStr → List Nat → Outcome (List Nat)
  | _, Option.none, _, my_list => Outcome.returned my_list
  | 0, some _, _, _ => Outcome.out_of_fuel
  | fuel + 1, some state, tmp_char, my_list =>
    let r := _parse_state ns state 0     -- `xmalloc` hands out zeroed memory
    if r.rc ≠ SLURM_SUCCESS then Outcome.exited 1 r.stderr
    else
      let nxt := strtok_r tmp_char [',']
      build_state_loop ns fuel nxt.1 nxt.2 (my_list ++ [r.states])

/-- The function `_build_state_list`; the returned `List` is `none` when it
is `NULL`. -/
def _build_state_list (ns : NodeStates) (str : Option CStr) :
    Outcome (Option (List Nat)) :=
  match str with
  | Option.none => Outcome.returned Option.none
  | some s =>
    if strcasecmp s "all".toList = 0 then
      Outcome.returned (some (_build_all_states_list ns))
    else
      let my_state_list := s
      let first := strtok_r my_state_list [',']
      match build_state_loop ns (my_state_list.length + 1) first.1 first.2 [] with
      | Outcome.returned l => Outcome.returned (some l)
      | Outcome.exited n e => Outcome.exited n e
      | Outcome.out_of_fuel => Outcome.out_of_fuel

/-! ## The state-list compiler on an explicit heap

The same function once more, with the character buffers it reads and writes
made explicit: `str` is a pointer into a heap, `xstrdup` allocates a new
buffer, and `strtok_r` overwrites delimiters in the buffer it is handed. -/

/-- A heap of character buffers: buffer `b` holds the bytes `h[b]`,
terminators included. -/
abbrev Heap := List (List Char)

/-- A pointer: a buffer of the heap and an offset into it. -/
structure Ptr where
  buf : Nat
  off : Nat
  deriving DecidableEq, Repr

/-- The bytes of buffer `b`. -/
def Heap.bytes (h : Heap) (b : Nat) : List Char := h.getD b []

/-- The C string at offset `off` of a buffer: the bytes from there up to the
first terminator. -/
def cstr_at (bytes : List Char) (off : Nat) : CStr :=
  (bytes.drop off).takeWhile (fun c => !(c == NUL))

/-- The C string at `p`. -/
def Heap.cstr (h : Heap) (p : Ptr) : CStr := cstr_at (h.bytes p.buf) p.off

/-- The libc `xstrdup(p)`: a new buffer that holds a copy of the string at
`p` and its terminator; the result is the heap and the pointer to the copy. -/
def xstrdup (h : Heap) (p : Ptr) : Heap × Ptr :=
  (h ++ [h.cstr p ++ [NUL]], ⟨h.length, 0⟩)

/-- The libc `strtok_r` on the bytes of one buffer, scanning from offset
`s`: the delimiters at `s` are skipped; at the terminator the result is
`NULL`; otherwise the token starts there and runs up to the next delimiter,
which is overwritten by a terminator. The result is the bytes afterwards,
the offset of the token (`none` for `NULL`) and the new save offset. -/
def strtok_r_bytes (bytes : List Char) (s : Nat) (delim : CStr) :
    List Char × Option Nat × Nat :=
  let start := s + ((cstr_at bytes s).takeWhile (isDelim delim)).length
  if charAt bytes start = NUL then (bytes, Option.none, start)
  else
    let e := start + ((cstr_at bytes start).takeWhile (fun c => !isDelim delim c)).length
    if charAt bytes e = NUL then (bytes, some start, e)
    else (bytes.set e NUL, some start, e + 1)

/-- The libc `strtok_r` on the heap, scanning from the pointer `s` (the
first argument on the first call, `*saveptr` on later calls): it works in the
buffer of `s`. The result is the heap afterwards, the token and the new
`*saveptr`. -/
def strtok_r_heap (h : Heap) (s : Ptr) (delim : CStr) : Heap × Option Ptr × Ptr :=
  let r := strtok_r_bytes (h.bytes s.buf) s.off delim
  (h.set s.buf r.1, r.2.1.map (fun o => ⟨s.buf, o⟩), ⟨s.buf, r.2.2⟩)

/-- The `while (state)` loop of `_build_state_list` on the heap. -/
def build_state_loop_heap (ns : NodeStates) :
    Nat → Heap → Option Ptr → Ptr → List Nat → Outcome (List Nat) × Heap
  | _, h, Option.none, _, my_list => (Outcome.returned my_list, h)
  | 0, h, some _, _, _ => (Outcome.out_of_fuel, h)
  | fuel + 1, h, some state, tmp_char, my_list =>
    let r := _parse_state ns (h.cstr state) 0
    if r.rc ≠ SLURM_SUCCESS then (Outcome.exited 1 r.stderr, h)
    else
      let nxt := strtok_r_heap h tmp_char [',']
      build_state_loop_heap ns fuel nxt.1 nxt.2.1 nxt.2.2 (my_list ++ [r.states])

/-- The function `_build_state_list` on the heap: the result and the heap
afterwards. The buffer of `my_state_list` is released by `xfree` at the end;
it stays in the heap here, since nothing refers to it any more. -/
def _build_state_list_heap (ns : NodeStates) (h : Heap) (str : Option Ptr) :
    Outcome (Option (List Nat)) × Heap :=
  match str with
  | Option.none => (Outcome.returned Option.none, h)
  | some p =>
    if strcasecmp (h.cstr p) "all".toList = 0 then
      (Outcome.returned (some ( _build_all_states_list ns)), h)
    else
      let d := xstrdup h p
      let first := strtok_r_heap d.1 d.2 [',']
      match build_state_loop_heap ns ((d.1.cstr d.2).length + 1)
          first.1 first.2.1 first.2.2 [] with
      | (Outcome.returned l, h1) => (Outcome.returned (some l), h1)
      | (Outcome.exited n e, h1) => (Outcome.exited n e, h1)
      | (Outcome.out_of_fuel, h1) => (Outcome.out_of_fuel, h1)

/-- A sample instance of the state tables, for evaluating the state functions
on concrete inputs: seven states with verbose and compact names. -/
def sample_states : NodeStates where
  NODE_STATE_END := 7
  node_state_string := fun i =>
    (["DOWN", "UNKNOWN", "IDLE", "ALLOCATED", "DRAINED", "DRAINING",
      "COMPLETING"].getD i "?").toList
  node_state_string_compact := fun i =>
    (["DOWN", "UNK", "IDLE", "ALLOC", "DRAIN", "DRNG", "COMP"].getD i "?").toList

/-! ## Definitions used to state the properties -/

/-- The non-empty maximal `d`-free segments of `s`, from left to right: the
pieces between occurrences of `d`, empty pieces left out. -/
def segments (d : Char) (s : CStr) : List CStr :=
  (s.splitOn d).filter (fun t => !t.isEmpty)

/-- The letter table of the format grammar, as the specification lists it. -/
def letter_table : List (Char × FieldKind) :=
  [('a', FieldKind.avail), ('A', FieldKind.nodes_ai), ('c', FieldKind.cpus),
   ('d', FieldKind.disk), ('D', FieldKind.nodes), ('f', FieldKind.features),
   ('F', FieldKind.nodes_aiot), ('g', FieldKind.groups), ('h', FieldKind.share),
   ('l', FieldKind.time), ('m', FieldKind.memory), ('N', FieldKind.node_list),
   ('P', FieldKind.partition), ('r', FieldKind.root), ('R', FieldKind.reason),
   ('s', FieldKind.size), ('t', FieldKind.state_compact),
   ('T', FieldKind.state_long), ('w', FieldKind.weight)]

/-- Field kind of a letter according to the letter table, `none` for a
character that is not in the table. -/
def field_kind (c : Char) : Option FieldKind := letter_table.lookup c

/-- The flags after a column of kind `k` has been requested, as the
specification lists them: kinds without a listed flag change nothing. -/
def flag_for (k : FieldKind) (m : MatchFlags) : MatchFlags :=
  match k with
  | FieldKind.avail => { m with avail_flag := true }
  | FieldKind.features => { m with features_flag := true }
  | FieldKind.groups => { m with groups_flag := true }
  | FieldKind.share => { m with share_flag := true }
  | FieldKind.time => { m with max_time_flag := true }
  | FieldKind.partition => { m with partition_flag := true }
  | FieldKind.root => { m with root_flag := true }
  | FieldKind.reason => { m with reason_flag := true }
  | FieldKind.size => { m with job_size_flag := true }
  | FieldKind.state_compact => { m with state_flag := true }
  | FieldKind.state_long => { m with state_flag := true }
  | _ => m

/-- The column a token stands for according to the specification: its letter
looked up in the table, with the width, justification and suffix that
`_parse_token` extracts; `none` when the letter is not in the table. -/
def token_spec (token : CStr) : Option ColumnSpec :=
  (field_kind ( _parse_token token).field).map fun k =>
    ⟨k, ( _parse_token token).field_size, ( _parse_token token).right_justify,
      ( _parse_token token).suffix.getD []⟩

/-- The diagnostic a token causes: one line naming its field character when
that character is not in the table. -/
def token_diag (token : CStr) : Option CStr :=
  match field_kind ( _parse_token token).field with
  | some _ => Option.none
  | Option.none => some (invalid_format_msg ( _parse_token token).field)

/-- The flags after a token, according to the specification. -/
def token_flags (m : MatchFlags) (token : CStr) : MatchFlags :=
  match field_kind ( _parse_token token).field with
  | some k => flag_for k m
  | Option.none => m

/-- The tokens of a template: the segments from its first `%` on. -/
def field_tokens (format : CStr) : List CStr :=
  segments '%' (format.dropWhile (fun c => !(c == '%')))

/-- The entry for the literal text before the first `%`: none when the
template begins with `%`. -/
def literal_entry (format : CStr) : List ColumnSpec :=
  if charAt format 0 = '%' then []
  else [⟨FieldKind.literal, 0, false, format.takeWhile (fun c => !(c == '%'))⟩]

/-- Decimal value of a run of digit characters. -/
def decimal_value (digits : CStr) : Int :=
  digits.foldl (fun acc c => acc * 10 + ((c.toNat : Int) - 48)) 0

/-- One field specification of the template grammar,
`'.'? digit* letter suffix`. -/
structure FieldText where
  dot : Bool
  digits : CStr
  letter : Char
  suffix : CStr
  deriving DecidableEq, Repr

/-- The text of a field specification, without its leading `%`. -/
def FieldText.text (f : FieldText) : CStr :=
  (if f.dot then ['.'] else []) ++ (f.digits ++ f.letter :: f.suffix)

/-- A field specification is well formed when its digit run consists of ASCII
digits with a decimal value that fits in an `int`, its letter is in the letter
table and its suffix has no `%`. -/
def FieldText.wf (f : FieldText) : Prop :=
  (∀ c ∈ f.digits, '0' ≤ c ∧ c ≤ '9') ∧ decimal_value f.digits < 2147483648 ∧
  (field_kind f.letter).isSome = true ∧ '%' ∉ f.suffix

instance (f : FieldText) : Decidable f.wf := by
  unfold FieldText.wf; infer_instance

/-- The column the specification assigns to a field specification: kind from
the letter table, width the decimal value of the digits (0 without digits),
right-justified exactly when the `.` is present, suffix verbatim. -/
def FieldText.column (f : FieldText) : Option ColumnSpec :=
  (field_kind f.letter).map fun k => ⟨k, decimal_value f.digits, f.dot, f.suffix⟩

/-- The template `%f1%f2...%fn` of a list of field specifications. -/
def render : List FieldText → CStr
  | [] => []
  | f :: fs => '%' :: (f.text ++ render fs)

/-- The entries of a format list that stand for real fields: all but the
literal entry. -/
def real_columns (l : List ColumnSpec) : List ColumnSpec :=
  l.filter (fun c => decide (c.kind ≠ FieldKind.literal))

/-- Equality of two strings ignoring ASCII letter case. -/
def eq_ignore_case (a b : CStr) : Prop := a.map tolower = b.map tolower

instance (a b : CStr) : Decidable (eq_ignore_case a b) := by
  unfold eq_ignore_case; infer_instance

/-- The steps of the loop of `_build_state_list` over a given list of tokens:
each token is resolved by `_parse_state` and its code appended; the first
token that does not resolve ends the run with `exit(1)`. -/
def resolve_tokens (ns : NodeStates) : List CStr → List Nat → Outcome (List Nat)
  | [], my_list => Outcome.returned my_list
  | t :: ts, my_list =>
    if ( _parse_state ns t 0).rc ≠ SLURM_SUCCESS then
      Outcome.exited 1 ( _parse_state ns t 0).stderr
    else resolve_tokens ns ts (my_list ++ [( _parse_state ns t 0).states])

/-- The function `_parse_state` with its two comparisons in the other order:
the compact name is compared first. -/
def parse_state_scan_compact_first (ns : NodeStates) (str : CStr) :
    Nat → Nat → Option Nat
  | 0, _ => Option.none
  | n + 1, i =>
    if strcasecmp (ns.node_state_string_compact i) str = 0 then some i
    else if strcasecmp (ns.node_state_string i) str = 0 then some i
    else parse_state_scan_compact_first ns str n (i + 1)

/-- The function `_parse_state` with the compact name compared first. -/
def _parse_state_compact_first (ns : NodeStates) (str : CStr) (states : Nat) :
    ParseStateResult :=
  match parse_state_scan_compact_first ns str ns.NODE_STATE_END 0 with
  | some i => ⟨SLURM_SUCCESS, to_uint16 i, []⟩
  | Option.none =>
    ⟨SLURM_ERROR, states,
      ["Invalid node state specified: ".toList ++ str ++ "\n".toList,
       "Valid node states include: ".toList ++ state_names ns ++ "\n".toList]⟩

/-- A state name matches a token: the verbose or the compact name of code `i`
equals the token ignoring ASCII case. -/
def name_matches (ns : NodeStates) (str : CStr) (i : Nat) : Prop :=
  eq_ignore_case (ns.node_state_string i) str ∨
    eq_ignore_case (ns.node_state_string_compact i) str

instance (ns : NodeStates) (str : CStr) (i : Nat) : Decidable (name_matches ns str i) := by
  unfold name_matches; infer_instance

/-- No flag that is set in `a` is cleared in `b`. -/
def MatchFlags.le (a b : MatchFlags) : Prop :=
  (a.avail_flag = true → b.avail_flag = true) ∧
  (a.features_flag = true → b.features_flag = true) ∧
  (a.groups_flag = true → b.groups_flag = true) ∧
  (a.job_size_flag = true → b.job_size_flag = true) ∧
  (a.max_time_flag = true → b.max_time_flag = true) ∧
  (a.partition_flag = true → b.partition_flag = true) ∧
  (a.reason_flag = true → b.reason_flag = true) ∧
  (a.root_flag = true → b.root_flag = true) ∧
  (a.share_flag = true → b.share_flag = true) ∧
  (a.state_flag = true → b.state_flag = true)

/-- The maximal run of ASCII digits that follows the optional `.` of a
token. -/
def digit_run (token : CStr) : CStr :=
  (token.drop (if charAt token 0 = '.' then 1 else 0)).takeWhile
    (fun c => decide ('0' ≤ c ∧ c ≤ '9'))

/-- An outcome without the text printed before an exit: what is left is
whether the call returned, what it returned, and the exit status. -/
def Outcome.forget_stderr {α : Type} : Outcome α → Outcome α
  | Outcome.returned a => Outcome.returned a
  | Outcome.exited n _ => Outcome.exited n []
  | Outcome.out_of_fuel => Outcome.out_of_fuel

/-- The tokens of a template as the segments of the whole template: all
non-empty maximal `%`-free segments when the template begins with `%`, all
but the leading one otherwise. -/
def template_tokens (format : CStr) : List CStr :=
  if format.head? = some '%' then segments '%' format else (segments '%' format).tail

/-- A field specification whose field character is present but is not a
letter of the table: its digit run consists of ASCII digits, the character
after it is neither a digit nor one of the 19 letters nor `%`, its suffix
has no `%`, and without the `.` its text does not begin with `.`. -/
def FieldText.unrecognised (f : FieldText) : Prop :=
  (∀ c ∈ f.digits, '0' ≤ c ∧ c ≤ '9') ∧ ¬ ('0' ≤ f.letter ∧ f.letter ≤ '9') ∧
  f.letter ∉ ['a', 'A', 'c', 'd', 'D', 'f', 'F', 'g', 'h', 'l', 'm', 'N', 'P', 'r', 'R',
    's', 't', 'T', 'w'] ∧
  f.letter ≠ '%' ∧ '%' ∉ f.suffix ∧ (f.dot = false → f.digits = [] → f.letter ≠ '.')

instance (f : FieldText) : Decidable f.unrecognised := by
  unfold FieldText.unrecognised; infer_instance

/-! # Properties -/

/-! ## Segments and `strtok_r` -/


theorem segments_nil (d : Char) : segments d [] = [] := by
  simp [segments]

theorem segments_cons_delim (d : Char) (s : CStr) :
    segments d (d :: s) = segments d s := by
  simp [segments, List.splitOn, List.filter]

theorem segments_single (d : Char) (tok : CStr) (hne : tok ≠ [])
    (hfree : d ∉ tok) : segments d tok = [tok] := by
  have h : tok.splitOn d = [tok] := by
    apply List.splitOnP_eq_single
    intro x hx hxd
    have : x = d := by simpa using hxd
    exact hfree (this ▸ hx)
  cases tok with
  | nil => exact absurd rfl hne
  | cons c cs => rw [segments, h]; simp [List.filter]

theorem segments_append_delim (d : Char) (tok s : CStr) (hne : tok ≠ [])
    (hfree : d ∉ tok) : segments d (tok ++ d :: s) = tok :: segments d s := by
  have h : (tok ++ d :: s).splitOn d = tok :: s.splitOn d := by
    apply List.splitOnP_first
    · intro x hx hxd
      have : x = d := by simpa using hxd
      exact hfree (this ▸ hx)
    · simp
  cases tok with
  | nil => exact absurd rfl hne
  | cons c cs => rw [segments, h]; simp [List.filter, segments]

theorem isDelim_single (d c : Char) : isDelim [d] c = (c == d) := by
  cases h : c == d <;> simp [isDelim, List.contains, List.elem, h]

/-- What `strtok_r` does on a string that starts with a non-delimiter: the
token is the text up to the next delimiter. -/
theorem strtok_r_cons (d c : Char) (cs : CStr) (hc : c ≠ d) :
    strtok_r (c :: cs) [d] =
      (some ((c :: cs).takeWhile (fun x => !(x == d))),
        ((c :: cs).dropWhile (fun x => !(x == d))).drop 1) := by
  have hf : (fun x => !isDelim [d] x) = (fun x => !(x == d)) := by
    funext x; rw [isDelim_single]
  have h1 : (c :: cs).dropWhile (isDelim [d]) = c :: cs := by
    rw [List.dropWhile_cons_of_neg]; rw [isDelim_single]; simpa using hc
  simp only [strtok_r, h1, hf]
  simp

theorem strtok_r_delim (d : Char) (s : CStr) : strtok_r (d :: s) [d] = strtok_r s [d] := by
  have h1 : (d :: s).dropWhile (isDelim [d]) = s.dropWhile (isDelim [d]) := by
    rw [List.dropWhile_cons_of_pos]; rw [isDelim_single]; simp
  simp only [strtok_r, h1]

theorem strtok_r_nil (delim : CStr) : strtok_r [] delim = (Option.none, []) := by
  simp [strtok_r]

/-- A string is a `d`-free run followed by nothing or by `d` and a rest. -/
theorem run_split (d : Char) (s : CStr) :
    d ∉ s.takeWhile (fun x => !(x == d)) ∧
    (s.dropWhile (fun x => !(x == d)) = [] ∨
      ∃ r, s.dropWhile (fun x => !(x == d)) = d :: r) := by
  constructor
  · intro h
    have := List.mem_takeWhile_imp h
    simp at this
  · cases h : s.dropWhile (fun x => !(x == d)) with
    | nil => exact Or.inl rfl
    | cons y r =>
      right
      have := List.head_dropWhile_not (fun x => !(x == d)) s (by rw [h]; simp)
      simp [h] at this
      exact ⟨r, by rw [this]⟩

/-- Relation between `strtok_r` and `segments`: the token is the first
segment, the string left at the save pointer holds the remaining segments and
is shorter than the string scanned. -/
theorem strtok_r_segments (d : Char) (s : CStr) :
    (strtok_r s [d]).1 = (segments d s).head? ∧
    segments d (strtok_r s [d]).2 = (segments d s).tail ∧
    (strtok_r s [d]).2.length ≤ s.length - 1 := by
  induction s with
  | nil => simp [strtok_r_nil, segments_nil]
  | cons c cs ih =>
    by_cases hc : c = d
    · subst hc
      rw [strtok_r_delim, segments_cons_delim]
      refine ⟨ih.1, ih.2.1, ?_⟩
      have := ih.2.2
      simp only [List.length_cons]; omega
    · rw [strtok_r_cons d c cs hc]
      obtain ⟨hfree, hrest⟩ := run_split d (c :: cs)
      have hne : (c :: cs).takeWhile (fun x => !(x == d)) ≠ [] := by
        rw [List.takeWhile_cons_of_pos (by simpa using hc)]; simp
      have hsplit := List.takeWhile_append_dropWhile (fun x => !(x == d)) (c :: cs)
      have hlen : ((c :: cs).takeWhile (fun x => !(x == d))).length +
          ((c :: cs).dropWhile (fun x => !(x == d))).length = (c :: cs).length := by
        rw [← List.length_append, hsplit]
      have hpos : 0 < ((c :: cs).takeWhile (fun x => !(x == d))).length :=
        List.length_pos.mpr hne
      rcases hrest with h0 | ⟨r, hr⟩
      · have hs : segments d (c :: cs) = [(c :: cs).takeWhile (fun x => !(x == d))] := by
          conv_lhs => rw [← hsplit, h0, List.append_nil]
          exact segments_single d _ hne hfree
        rw [hs, h0]
        simp [segments_nil]
      · have hs : segments d (c :: cs) =
            (c :: cs).takeWhile (fun x => !(x == d)) :: segments d r := by
          conv_lhs => rw [← hsplit, hr]
          exact segments_append_delim d _ r hne hfree
        rw [hs, hr]
        refine ⟨rfl, rfl, ?_⟩
        rw [hr] at hlen
        simp only [List.drop_succ_cons, List.drop_zero, List.length_cons] at hlen ⊢
        omega

/-! ## One token of the format loop -/

theorem field_kind_eq_none (c : Char) (ha : c ≠ 'a') (hA : c ≠ 'A') (hc : c ≠ 'c')
    (hd : c ≠ 'd') (hD : c ≠ 'D') (hf : c ≠ 'f') (hF : c ≠ 'F') (hg : c ≠ 'g')
    (hh : c ≠ 'h') (hl : c ≠ 'l') (hm : c ≠ 'm') (hN : c ≠ 'N') (hP : c ≠ 'P')
    (hr : c ≠ 'r') (hR : c ≠ 'R') (hs : c ≠ 's') (ht : c ≠ 't') (hT : c ≠ 'T')
    (hw : c ≠ 'w') : field_kind c = Option.none := by
  have e : ∀ x : Char, c ≠ x → (c == x) = false := fun x hx => beq_false_of_ne hx
  simp only [field_kind, letter_table, List.lookup, e _ ha, e _ hA, e _ hc, e _ hd, e _ hD,
    e _ hf, e _ hF, e _ hg, e _ hh, e _ hl, e _ hm, e _ hN, e _ hP, e _ hr, e _ hR, e _ hs,
    e _ ht, e _ hT, e _ hw]

theorem field_kind_table :
    field_kind 'a' = some FieldKind.avail ∧ field_kind 'A' = some FieldKind.nodes_ai ∧
    field_kind 'c' = some FieldKind.cpus ∧ field_kind 'd' = some FieldKind.disk ∧
    field_kind 'D' = some FieldKind.nodes ∧ field_kind 'f' = some FieldKind.features ∧
    field_kind 'F' = some FieldKind.nodes_aiot ∧ field_kind 'g' = some FieldKind.groups ∧
    field_kind 'h' = some FieldKind.share ∧ field_kind 'l' = some FieldKind.time ∧
    field_kind 'm' = some FieldKind.memory ∧ field_kind 'N' = some FieldKind.node_list ∧
    field_kind 'P' = some FieldKind.partition ∧ field_kind 'r' = some FieldKind.root ∧
    field_kind 'R' = some FieldKind.reason ∧ field_kind 's' = some FieldKind.size ∧
    field_kind 't' = some FieldKind.state_compact ∧
    field_kind 'T' = some FieldKind.state_long ∧ field_kind 'w' = some FieldKind.weight := by
  decide

/-- The body of the format loop does what the table says: it appends the
column of the token if there is one, sets the flag of its kind, and prints
the diagnostic otherwise. -/
theorem parse_format_token_eq (token : CStr) (p : Params) :
    parse_format_token token p =
      ⟨p.format_list ++ (token_spec token).toList,
       token_flags p.match_flags token,
       p.stderr ++ (token_diag token).toList⟩ := by
  unfold parse_format_token token_spec token_diag token_flags
  generalize ( _parse_token token) = t
  obtain ⟨c, w, j, sf, nx⟩ := t
  obtain ⟨k1, k2, k3, k4, k5, k6, k7, k8, k9, k10, k11, k12, k13, k14, k15, k16, k17, k18,
    k19⟩ := field_kind_table
  by_cases h1 : c = 'a'
  · subst h1; simp [k1, flag_for, format_add]
  by_cases h2 : c = 'A'
  · subst h2; simp [k2, flag_for, format_add]
  by_cases h3 : c = 'c'
  · subst h3; simp [k3, flag_for, format_add]
  by_cases h4 : c = 'd'
  · subst h4; simp [k4, flag_for, format_add]
  by_cases h5 : c = 'D'
  · subst h5; simp [k5, flag_for, format_add]
  by_cases h6 : c = 'f'
  · subst h6; simp [k6, flag_for, format_add]
  by_cases h7 : c = 'F'
  · subst h7; simp [k7, flag_for, format_add]
  by_cases h8 : c = 'g'
  · subst h8; simp [k8, flag_for, format_add]
  by_cases h9 : c = 'h'
  · subst h9; simp [k9, flag_for, format_add]
  by_cases h10 : c = 'l'
  · subst h10; simp [k10, flag_for, format_add]
  by_cases h11 : c = 'm'
  · subst h11; simp [k11, flag_for, format_add]
  by_cases h12 : c = 'N'
  · subst h12; simp [k12, flag_for, format_add]
  by_cases h13 : c = 'P'
  · subst h13; simp [k13, flag_for, format_add]
  by_cases h14 : c = 'r'
  · subst h14; simp [k14, flag_for, format_add]
  by_cases h15 : c = 'R'
  · subst h15; simp [k15, flag_for, format_add]
  by_cases h16 : c = 's'
  · subst h16; simp [k16, flag_for, format_add]
  by_cases h17 : c = 't'
  · subst h17; simp [k17, flag_for, format_add]
  by_cases h18 : c = 'T'
  · subst h18; simp [k18, flag_for, format_add]
  by_cases h19 : c = 'w'
  · subst h19; simp [k19, flag_for, format_add]
  rw [field_kind_eq_none c h1 h2 h3 h4 h5 h6 h7 h8 h9 h10 h11 h12 h13 h14 h15 h16 h17 h18 h19]
  simp [h1, h2, h3, h4, h5, h6, h7, h8, h9, h10, h11, h12, h13, h14, h15, h16, h17, h18, h19]

/-! ## The format loop as a fold over the tokens -/

/-- Started on what `strtok_r` yields for `s`, the format loop returns, having
run its body on every segment of `s` from left to right. -/
theorem parse_format_loop_eq (fuel : Nat) (s : CStr) (p : Params)
    (hfuel : s.length ≤ fuel) :
    parse_format_loop fuel (strtok_r s ['%']).1 (strtok_r s ['%']).2 p =
      Outcome.returned ((segments '%' s).foldl (fun q t => parse_format_token t q) p) := by
  induction fuel generalizing s p with
  | zero =>
    have hs : s = [] := List.length_eq_zero.mp (Nat.le_zero.mp hfuel)
    subst hs
    simp [strtok_r_nil, segments_nil, parse_format_loop]
  | succ n ih =>
    obtain ⟨h1, h2, h3⟩ := strtok_r_segments '%' s
    cases hseg : segments '%' s with
    | nil =>
      rw [hseg] at h1
      simp only [List.head?_nil] at h1
      rw [h1]
      simp [parse_format_loop]
    | cons t ts =>
      rw [hseg] at h1 h2
      simp only [List.head?_cons, List.tail_cons] at h1 h2
      rw [h1]
      simp only [parse_format_loop, List.foldl_cons]
      rw [ih _ _ (by omega), h2]

/-- Folding the loop body over a list of tokens appends their columns and
diagnostics and accumulates their flags. -/
theorem foldl_parse_format_token (toks : List CStr) (p : Params) :
    toks.foldl (fun q t => parse_format_token t q) p =
      ⟨p.format_list ++ toks.filterMap token_spec,
       toks.foldl token_flags p.match_flags,
       p.stderr ++ toks.filterMap token_diag⟩ := by
  induction toks generalizing p with
  | nil => simp
  | cons t ts ih =>
    rw [List.foldl_cons, ih, parse_format_token_eq]
    cases h1 : token_spec t <;> cases h2 : token_diag t <;>
      simp [List.filterMap_cons, h1, h2]

/-! ## `_get_prefix` and the whole of `_parse_format` -/

theorem strchr_eq_none (s : CStr) (c : Char) (h : c ∉ s) : strchr s c = Option.none := by
  induction s with
  | nil => rfl
  | cons x xs ih =>
    have hx : x ≠ c := fun e => h (e ▸ List.mem_cons_self x xs)
    have hxs : c ∉ xs := fun e => h (List.mem_cons_of_mem x e)
    simp [strchr, hx, ih hxs]

theorem strchr_eq_some (s : CStr) (c : Char) (h : c ∈ s) :
    ∃ pos, strchr s c = some pos ∧
      s.take pos = s.takeWhile (fun x => !(x == c)) ∧
      s.drop pos = s.dropWhile (fun x => !(x == c)) ∧
      (pos = 0 ↔ s.head? = some c) := by
  induction s with
  | nil => exact absurd h (List.not_mem_nil c)
  | cons x xs ih =>
    by_cases hx : x = c
    · subst hx
      exact ⟨0, by simp [strchr], by simp, by simp, by simp⟩
    · have hxs : c ∈ xs := by
        rcases List.mem_cons.mp h with e | e
        · exact absurd e.symm hx
        · exact e
      obtain ⟨pos, h1, h2, h3, _⟩ := ih hxs
      refine ⟨pos + 1, by simp [strchr, hx, h1], ?_, ?_, ?_⟩
      · rw [List.takeWhile_cons_of_pos (by simpa using hx)]; simp [h2]
      · rw [List.dropWhile_cons_of_pos (by simpa using hx)]; simp [h3]
      · simp [hx]

theorem takeWhile_ne_of_not_mem (s : CStr) (c : Char) (h : c ∉ s) :
    s.takeWhile (fun x => !(x == c)) = s ∧ s.dropWhile (fun x => !(x == c)) = [] := by
  induction s with
  | nil => simp
  | cons x xs ih =>
    have hx : x ≠ c := fun e => h (e ▸ List.mem_cons_self x xs)
    have hxs : c ∉ xs := fun e => h (List.mem_cons_of_mem x e)
    rw [List.takeWhile_cons_of_pos (by simpa using hx),
      List.dropWhile_cons_of_pos (by simpa using hx)]
    simp [ih hxs]

/-- What `_get_prefix` returns and leaves in the buffer, for a string that is
not `NULL`: the text before the first `%` (or `NULL` when the string begins
with `%`), and the string from the first `%` on (unchanged when there is no
`%`). -/
theorem get_prefix_eq (tok : CStr) :
    _get_prefix (some tok) =
      ⟨if charAt tok 0 = '%' then Option.none
        else some (tok.takeWhile (fun c => !(c == '%'))),
       some (if '%' ∈ tok then tok.dropWhile (fun c => !(c == '%')) else tok)⟩ := by
  by_cases h : '%' ∈ tok
  · obtain ⟨pos, h1, h2, h3, h4⟩ := strchr_eq_some tok '%' h
    cases tok with
    | nil => exact absurd h (List.not_mem_nil _)
    | cons x xs =>
      by_cases hx : x = '%'
      · have hp : pos = 0 := h4.mpr (by simp [hx])
        subst hp
        subst hx
        simp [ _get_prefix, h1, charAt]
      · have hp : pos ≠ 0 := fun e => hx (by simpa using h4.mp e)
        simp only [ _get_prefix, h1, hp, if_false, h, if_true, h2, h3]
        simp [charAt, hx]
  · have h0 : charAt tok 0 ≠ '%' := by
      cases tok with
      | nil => simp [charAt, NUL]
      | cons x xs =>
        have hx : x ≠ '%' := fun e => h (e ▸ List.mem_cons_self x xs)
        simpa [charAt] using hx
    simp [ _get_prefix, strchr_eq_none tok '%' h, h, h0, (takeWhile_ne_of_not_mem tok '%' h).1]

theorem dropWhile_of_mem (s : CStr) (c : Char) (h : c ∈ s) :
    ∃ r, s.dropWhile (fun x => !(x == c)) = c :: r := by
  rcases (run_split c s).2 with h0 | h1
  · exfalso
    have hs := List.takeWhile_append_dropWhile (fun x => !(x == c)) s
    rw [h0, List.append_nil] at hs
    have hm : c ∈ s.takeWhile (fun x => !(x == c)) := by rw [hs]; exact h
    exact (run_split c s).1 hm
  · exact h1

/-- The loop of `_parse_format` run from the first call of `strtok_r` on `s`,
with any iteration bound of at least the length of `s`. -/
theorem parse_format_loop_first (fuel : Nat) (s : CStr) (p : Params)
    (hfuel : s.length ≤ fuel) :
    parse_format_loop fuel (strtok_r s ['%']).1 (strtok_r s ['%']).2 p =
      Outcome.returned
        ⟨p.format_list ++ (segments '%' s).filterMap token_spec,
         (segments '%' s).foldl token_flags p.match_flags,
         p.stderr ++ (segments '%' s).filterMap token_diag⟩ := by
  rw [parse_format_loop_eq fuel s p hfuel, foldl_parse_format_token]

/-- The function `_parse_format` on a format that is not `NULL`: it returns
`SLURM_SUCCESS`; the format list is the literal entry followed by the columns
of the tokens, the flags are those of the tokens added to the flags on entry,
one diagnostic is printed per token without a column, and the buffer is left
holding the format from its first `%` on. -/
theorem parse_format_eq (fmt : CStr) (p : Params) :
    _parse_format (some fmt) p =
      Outcome.returned
        ⟨SLURM_SUCCESS,
         ⟨literal_entry fmt ++ (field_tokens fmt).filterMap token_spec,
          (field_tokens fmt).foldl token_flags p.match_flags,
          p.stderr ++ (field_tokens fmt).filterMap token_diag⟩,
         if '%' ∈ fmt then fmt.dropWhile (fun c => !(c == '%')) else fmt⟩ := by
  by_cases h : '%' ∈ fmt
  · obtain ⟨r, hr⟩ := dropWhile_of_mem fmt '%' h
    have h1 : charAt ('%' :: r) 0 = '%' := by simp [charAt]
    simp only [_parse_format, get_prefix_eq, h, if_true, Option.getD_some, hr, h1,
      ne_eq, not_true_eq_false, and_false, if_false, decide_False]
    rw [parse_format_loop_first _ _ _ (Nat.le_succ _)]
    by_cases h0 : charAt fmt 0 = '%'
    · simp [h0, literal_entry, field_tokens, hr, format_add]
    · simp [h0, literal_entry, field_tokens, hr, format_add]
  · obtain ⟨ht, hd⟩ := takeWhile_ne_of_not_mem fmt '%' h
    have h0 : charAt fmt 0 ≠ '%' := by
      cases fmt with
      | nil => simp [charAt, NUL]
      | cons x xs =>
        have hx : x ≠ '%' := fun e => h (e ▸ List.mem_cons_self x xs)
        simpa [charAt] using hx
    have hft : field_tokens fmt = [] := by simp [field_tokens, hd, segments_nil]
    simp only [_parse_format, get_prefix_eq, h, if_false, Option.getD_some, h0, ht]
    cases fmt with
    | nil =>
      simp [strtok_r_nil, parse_format_loop, literal_entry, h0, hft, format_add,
        SLURM_SUCCESS, charAt, NUL]
    | cons x xs =>
      have hx : x ≠ '%' := fun e => h (e ▸ List.mem_cons_self x xs)
      obtain ⟨s1, s2, s3⟩ := strtok_r_segments '%' (x :: xs)
      have hseg : segments '%' (x :: xs) = [x :: xs] :=
        segments_single '%' (x :: xs) (List.cons_ne_nil x xs) h
      rw [hseg] at s1 s2
      have hsome : (strtok_r (x :: xs) ['%']).1.isSome = true := by rw [s1]; rfl
      simp only [hsome, ne_eq, h0, not_false_eq_true, and_self, if_true, decide_True]
      rw [parse_format_loop_first _ _ _ (by simp only [List.length_cons] at s3 ⊢; omega)]
      simp [s2, literal_entry, h0, hft, format_add, ht]

/-! ## Decomposition of a well-formed token -/

/-- The characters of the letter table. -/
theorem field_kind_some_mem (c : Char) (h : (field_kind c).isSome = true) :
    c ∈ ['a', 'A', 'c', 'd', 'D', 'f', 'F', 'g', 'h', 'l', 'm', 'N', 'P', 'r', 'R', 's',
      't', 'T', 'w'] := by
  by_contra hc
  simp only [List.mem_cons, List.mem_singleton, List.not_mem_nil, not_or, or_false] at hc
  obtain ⟨h1, h2, h3, h4, h5, h6, h7, h8, h9, h10, h11, h12, h13, h14, h15, h16, h17, h18,
    h19⟩ := hc
  rw [field_kind_eq_none c h1 h2 h3 h4 h5 h6 h7 h8 h9 h10 h11 h12 h13 h14 h15 h16 h17 h18
    h19] at h
  exact absurd h (by simp)

/-- A letter of the table is neither a digit, nor `.`, nor `%`. -/
theorem field_kind_some_props (c : Char) (h : (field_kind c).isSome = true) :
    ¬('0' ≤ c ∧ c ≤ '9') ∧ c ≠ '.' ∧ c ≠ '%' := by
  have hall : ∀ x ∈ ['a', 'A', 'c', 'd', 'D', 'f', 'F', 'g', 'h', 'l', 'm', 'N', 'P', 'r',
      'R', 's', 't', 'T', 'w'], ¬('0' ≤ x ∧ x ≤ '9') ∧ x ≠ '.' ∧ x ≠ '%' := by decide
  exact hall c (field_kind_some_mem c h)

theorem decimal_step_mono (ds : CStr) (acc : Int) (hacc : 0 ≤ acc)
    (hd : ∀ c ∈ ds, '0' ≤ c ∧ c ≤ '9') :
    acc ≤ ds.foldl (fun a c => a * 10 + ((c.toNat : Int) - 48)) acc := by
  induction ds generalizing acc with
  | nil => simp
  | cons d ds ih =>
    have hd0 : '0' ≤ d := (hd d (List.mem_cons_self d ds)).1
    have h48 : (48 : Int) ≤ (d.toNat : Int) := by
      have : (48 : Nat) ≤ d.toNat := hd0
      exact_mod_cast this
    have hstep : acc ≤ acc * 10 + ((d.toNat : Int) - 48) := by omega
    rw [List.foldl_cons]
    exact le_trans hstep
      (ih _ (le_trans hacc hstep) (fun c hc => hd c (List.mem_cons_of_mem d hc)))

/-- The digit loop on a run of digits ended by a character that is not a
digit: when the decimal value fits in an `int`, nothing wraps and the loop
returns that value and the index just after the run. -/
theorem scan_digits_run (ds : CStr) (c : Char) (rest : CStr) (acc : Int) (i : Nat)
    (hacc : 0 ≤ acc) (hd : ∀ x ∈ ds, '0' ≤ x ∧ x ≤ '9') (hc : ¬('0' ≤ c ∧ c ≤ '9'))
    (hfit : ds.foldl (fun a x => a * 10 + ((x.toNat : Int) - 48)) acc < 2147483648) :
    scan_digits (ds ++ c :: rest) acc i =
      (ds.foldl (fun a x => a * 10 + ((x.toNat : Int) - 48)) acc, i + ds.length) := by
  induction ds generalizing acc i with
  | nil => simp [scan_digits, hc]
  | cons d ds ih =>
    have hdd := hd d (List.mem_cons_self d ds)
    have h48 : (48 : Int) ≤ (d.toNat : Int) := by
      have : (48 : Nat) ≤ d.toNat := hdd.1
      exact_mod_cast this
    have hds : ∀ x ∈ ds, '0' ≤ x ∧ x ≤ '9' := fun x hx => hd x (List.mem_cons_of_mem d hx)
    have hstep : 0 ≤ acc * 10 + ((d.toNat : Int) - 48) := by omega
    rw [List.foldl_cons] at hfit
    have hle := decimal_step_mono ds _ hstep hds
    have hw : wrap32 (acc * 10 + ((d.toNat : Int) - 48)) = acc * 10 + ((d.toNat : Int) - 48) := by
      unfold wrap32; omega
    simp only [List.cons_append, scan_digits, hdd, and_self, if_true, hw, List.foldl_cons,
      List.length_cons]
    have := ih _ (i + 1) hstep hds hfit
    simp only [List.append_eq] at this ⊢
    rw [this]
    congr 1; omega

/-! ## Templates made of well-formed field specifications -/

theorem FieldText.text_props (f : FieldText) (h : f.wf) :
    f.text ≠ [] ∧ '%' ∉ f.text := by
  obtain ⟨hd, _, hl, hs⟩ := h
  obtain ⟨_, _, hpct⟩ := field_kind_some_props f.letter hl
  constructor
  · cases hdot : f.dot <;> simp [FieldText.text, hdot]
  · have hdig : '%' ∉ f.digits := fun hm => absurd (hd '%' hm) (by decide)
    cases hdot : f.dot <;>
      simp [FieldText.text, hdot, hdig, hs, Ne.symm hpct]

theorem charAt_append_cons (pre : CStr) (c : Char) (rest : CStr) :
    charAt (pre ++ c :: rest) pre.length = c := by
  induction pre with
  | nil => simp [charAt]
  | cons x xs ih => simpa [charAt] using ih

theorem charAt_zero_digits (ds : CStr) (c : Char) (rest : CStr)
    (hd : ∀ x ∈ ds, '0' ≤ x ∧ x ≤ '9') (hc : c ≠ '.') :
    charAt (ds ++ c :: rest) 0 ≠ '.' := by
  cases ds with
  | nil => simpa [charAt] using hc
  | cons d ds =>
    have := hd d (List.mem_cons_self d ds)
    have hne : d ≠ '.' := by
      intro e; rw [e] at this; exact absurd this (by decide)
    simpa [charAt] using hne

/-- The function `_parse_token` on the text of a well-formed field
specification returns its letter, the decimal value of its digits, its
justification and its suffix. -/
theorem parse_token_text (f : FieldText) (h : f.wf) :
    _parse_token f.text =
      ⟨f.letter, decimal_value f.digits, f.dot, some f.suffix,
        (if f.dot then 1 else 0) + f.digits.length + 1⟩ := by
  obtain ⟨hd, hv, hl, hs⟩ := h
  obtain ⟨hnd, hdotc, _⟩ := field_kind_some_props f.letter hl
  cases hdot : f.dot with
  | false =>
    have h0 := charAt_zero_digits f.digits f.letter f.suffix hd hdotc
    have hscan := scan_digits_run f.digits f.letter f.suffix 0 0 (le_refl 0) hd hnd hv
    simp only [_parse_token, FieldText.text, hdot, if_false, List.nil_append, h0,
      List.drop_zero, hscan, Bool.false_eq_true]
    simp [charAt_append_cons, decimal_value]
  | true =>
    have h0 : charAt ('.' :: (f.digits ++ f.letter :: f.suffix)) 0 = '.' := by simp [charAt]
    have hscan := scan_digits_run f.digits f.letter f.suffix 0 1 (le_refl 0) hd hnd hv
    have hget : charAt ('.' :: (f.digits ++ f.letter :: f.suffix)) (1 + f.digits.length)
        = f.letter := by
      have := charAt_append_cons ('.' :: f.digits) f.letter f.suffix
      simpa [Nat.add_comm] using this
    simp only [_parse_token, FieldText.text, hdot, if_true, List.singleton_append, h0,
      List.drop_succ_cons, List.drop_zero, hscan, hget]
    simp [decimal_value, Nat.add_comm]

theorem token_spec_text (f : FieldText) (h : f.wf) :
    token_spec f.text = f.column ∧ (f.column).isSome = true ∧
      token_diag f.text = Option.none := by
  have hl := h.2.2.1
  obtain ⟨k, hk⟩ := Option.isSome_iff_exists.mp hl
  simp [token_spec, token_diag, FieldText.column, parse_token_text f h, hk]

theorem render_head (fs : List FieldText) : render fs = [] ∨ ∃ r, render fs = '%' :: r := by
  cases fs with
  | nil => exact Or.inl rfl
  | cons f fs => exact Or.inr ⟨_, rfl⟩

theorem segments_render (fs : List FieldText) (hwf : ∀ f ∈ fs, f.wf) :
    segments '%' (render fs) = fs.map FieldText.text := by
  induction fs with
  | nil => simp [render, segments_nil]
  | cons f fs ih =>
    obtain ⟨hne, hfree⟩ := f.text_props (hwf f (List.mem_cons_self f fs))
    have ih1 := ih (fun g hg => hwf g (List.mem_cons_of_mem f hg))
    rw [render, segments_cons_delim, List.map_cons]
    rcases render_head fs with h0 | ⟨r, hr⟩
    · rw [h0] at ih1 ⊢
      rw [List.append_nil, segments_single '%' _ hne hfree]
      rw [segments_nil] at ih1
      rw [← ih1]
    · rw [hr] at ih1 ⊢
      rw [segments_append_delim '%' _ r hne hfree]
      rw [segments_cons_delim] at ih1
      rw [ih1]

theorem filterMap_token_spec_text (fs : List FieldText) (hwf : ∀ f ∈ fs, f.wf) :
    ((fs.map FieldText.text).filterMap token_spec).map some = fs.map FieldText.column ∧
    (fs.map FieldText.text).filterMap token_diag = [] := by
  induction fs with
  | nil => simp
  | cons f fs ih =>
    obtain ⟨h1, h2, h3⟩ := token_spec_text f (hwf f (List.mem_cons_self f fs))
    obtain ⟨ih1, ih2⟩ := ih (fun g hg => hwf g (List.mem_cons_of_mem f hg))
    obtain ⟨c, hc⟩ := Option.isSome_iff_exists.mp h2
    rw [hc] at h1
    simp only [List.map_cons, List.filterMap_cons, h1, h3, hc]
    exact ⟨by rw [ih1], ih2⟩

/-- C1: a template `%f1%f2...%fn` (`n ≥ 1`) of well-formed field
specifications compiles to exactly `n` columns, in the order of the
specifications, the `i`-th being the column of `fi`: kind from the letter
table, width the decimal value of the digit run, right-justified exactly when
the `.` is present, suffix verbatim. -/
theorem parse_format_fields (fs : List FieldText) (p : Params) (hne : fs ≠ [])
    (hwf : ∀ f ∈ fs, f.wf) :
    ∃ r, _parse_format (some (render fs)) p = Outcome.returned r ∧
      r.params.format_list.length = fs.length ∧
      r.params.format_list.map some = fs.map FieldText.column := by
  refine ⟨_, parse_format_eq (render fs) p, ?_⟩
  cases fs with
  | nil => exact absurd rfl hne
  | cons f fs =>
    have hlit : literal_entry (render (f :: fs)) = [] := by simp [literal_entry, render, charAt]
    have htok : field_tokens (render (f :: fs)) = (f :: fs).map FieldText.text := by
      rw [← segments_render (f :: fs) hwf]
      simp [field_tokens, render]
    have hmap := (filterMap_token_spec_text (f :: fs) hwf).1
    simp only [hlit, htok, List.nil_append]
    refine ⟨?_, hmap⟩
    have := congrArg List.length hmap
    simpa using this

theorem parse_format_fields_witness :
    ([⟨false, ['9'], 'P', [' ']⟩, ⟨true, ['5'], 'a', [' ']⟩, ⟨false, [], 'N', []⟩] :
        List FieldText) ≠ [] ∧
    (∀ f ∈ ([⟨false, ['9'], 'P', [' ']⟩, ⟨true, ['5'], 'a', [' ']⟩, ⟨false, [], 'N', []⟩] :
        List FieldText), f.wf) ∧
    ∃ r, _parse_format (some "%9P %.5a %N".toList) Params.init = Outcome.returned r ∧
      r.params.format_list.length = 3 ∧
      r.params.format_list.map some =
        [some ⟨FieldKind.partition, 9, false, [' ']⟩,
         some ⟨FieldKind.avail, 5, true, [' ']⟩,
         some ⟨FieldKind.node_list, 0, false, []⟩] :=
  ⟨by decide, by decide,
    parse_format_fields
      [⟨false, ['9'], 'P', [' ']⟩, ⟨true, ['5'], 'a', [' ']⟩, ⟨false, [], 'N', []⟩]
      Params.init (by decide) (by decide)⟩

/-! ## Templates without `%`, and literal text before the first `%` -/

/-- C2: a template without `%` compiles to exactly one entry, the literal
entry whose text is the whole template; no flag is set, nothing is printed
and the buffer is left as it was. -/
theorem parse_format_no_percent (t : CStr) (p : Params) (h : '%' ∉ t) :
    _parse_format (some t) p =
      Outcome.returned
        ⟨SLURM_SUCCESS, ⟨[⟨FieldKind.literal, 0, false, t⟩], p.match_flags, p.stderr⟩, t⟩ := by
  obtain ⟨ht, hd⟩ := takeWhile_ne_of_not_mem t '%' h
  have h0 : charAt t 0 ≠ '%' := by
    cases t with
    | nil => simp [charAt, NUL]
    | cons x xs =>
      have hx : x ≠ '%' := fun e => h (e ▸ List.mem_cons_self x xs)
      simpa [charAt] using hx
  rw [parse_format_eq]
  simp [literal_entry, field_tokens, h0, ht, hd, segments_nil, h]

theorem parse_format_no_percent_witness :
    '%' ∉ "NODES STATE".toList ∧
    _parse_format (some "NODES STATE".toList) Params.init =
      Outcome.returned
        ⟨SLURM_SUCCESS,
         ⟨[⟨FieldKind.literal, 0, false, "NODES STATE".toList⟩], MatchFlags.none, []⟩,
         "NODES STATE".toList⟩ :=
  ⟨by decide, parse_format_no_percent "NODES STATE".toList Params.init (by decide)⟩

theorem takeWhile_dropWhile_append (pre : CStr) (c : Char) (r : CStr) (h : c ∉ pre) :
    (pre ++ c :: r).takeWhile (fun x => !(x == c)) = pre ∧
    (pre ++ c :: r).dropWhile (fun x => !(x == c)) = c :: r := by
  induction pre with
  | nil => simp
  | cons x xs ih =>
    have hx : x ≠ c := fun e => h (e ▸ List.mem_cons_self x xs)
    have hxs : c ∉ xs := fun e => h (List.mem_cons_of_mem x e)
    rw [List.cons_append, List.takeWhile_cons_of_pos (by simpa using hx),
      List.dropWhile_cons_of_pos (by simpa using hx)]
    simp [ih hxs]

/-- C3: for a template `pre ++ r` with `pre` non-empty and free of `%` and `r`
beginning with `%`, the format list is the literal entry with text `pre`
followed by exactly the format list compiled from `r` alone; flags,
diagnostics and the buffer left behind are those of `r`. -/
theorem parse_format_literal_then_fields (pre r : CStr) (p : Params)
    (hne : pre ≠ []) (hfree : '%' ∉ pre) :
    ∃ res resr,
      _parse_format (some (pre ++ '%' :: r)) p = Outcome.returned res ∧
      _parse_format (some ('%' :: r)) p = Outcome.returned resr ∧
      res.params.format_list =
        ⟨FieldKind.literal, 0, false, pre⟩ :: resr.params.format_list ∧
      res.params.match_flags = resr.params.match_flags ∧
      res.params.stderr = resr.params.stderr ∧
      res.format = resr.format ∧ res.rc = resr.rc := by
  refine ⟨_, _, parse_format_eq _ p, parse_format_eq _ p, ?_⟩
  obtain ⟨ht, hd⟩ := takeWhile_dropWhile_append pre '%' r hfree
  have h0 : charAt (pre ++ '%' :: r) 0 ≠ '%' := by
    cases pre with
    | nil => exact absurd rfl hne
    | cons x xs =>
      have hx : x ≠ '%' := fun e => hfree (e ▸ List.mem_cons_self x xs)
      simpa [charAt] using hx
  have hl1 : literal_entry (pre ++ '%' :: r) = [⟨FieldKind.literal, 0, false, pre⟩] := by
    simp only [literal_entry, h0, if_false, ht]
  have hl2 : literal_entry ('%' :: r) = [] := by simp [literal_entry, charAt]
  have hf1 : field_tokens (pre ++ '%' :: r) = field_tokens ('%' :: r) := by
    simp [field_tokens, hd]
  simp [hl1, hl2, hf1, hd]

theorem parse_format_literal_then_fields_witness :
    "Header: ".toList ≠ [] ∧ '%' ∉ "Header: ".toList ∧
    (∃ res resr,
      _parse_format (some "Header: %.3t,".toList) Params.init = Outcome.returned res ∧
      _parse_format (some "%.3t,".toList) Params.init = Outcome.returned resr ∧
      res.params.format_list =
        ⟨FieldKind.literal, 0, false, "Header: ".toList⟩ :: resr.params.format_list ∧
      res.params.match_flags = resr.params.match_flags ∧
      res.params.stderr = resr.params.stderr ∧
      res.format = resr.format ∧ res.rc = resr.rc) ∧
    _parse_format (some "Header: %.3t,".toList) Params.init =
      Outcome.returned
        ⟨SLURM_SUCCESS,
         ⟨[⟨FieldKind.literal, 0, false, "Header: ".toList⟩,
           ⟨FieldKind.state_compact, 3, true, [',']⟩],
          { MatchFlags.none with state_flag := true }, []⟩,
         "%.3t,".toList⟩ :=
  ⟨by decide, by decide,
    parse_format_literal_then_fields "Header: ".toList ".3t,".toList Params.init
      (by decide) (by decide), by decide⟩

/-! ## Splitting a template at a `%` -/

theorem splitOnP_append_sep (q : Char → Bool) (x : CStr) (d : Char) (y : CStr)
    (hd : q d = true) :
    (x ++ d :: y).splitOnP q = x.splitOnP q ++ y.splitOnP q := by
  induction x with
  | nil => simp [hd]
  | cons c xs ih =>
    rw [List.cons_append, List.splitOnP_cons, List.splitOnP_cons, ih]
    by_cases hc : q c = true
    · simp [hc]
    · simp only [hc, if_false]
      cases h : xs.splitOnP q with
      | nil => exact absurd h (List.splitOnP_ne_nil q xs)
      | cons a as => simp [List.modifyHead]

theorem segments_append (d : Char) (x y : CStr) :
    segments d (x ++ d :: y) = segments d x ++ segments d y := by
  simp only [segments, List.splitOn]
  rw [splitOnP_append_sep _ x d y (by simp), List.filter_append]

theorem field_tokens_append (x y : CStr) :
    field_tokens (x ++ '%' :: y) = field_tokens x ++ segments '%' y := by
  by_cases h : '%' ∈ x
  · obtain ⟨a, b, hab, ha⟩ : ∃ a b, x = a ++ '%' :: b ∧ '%' ∉ a := by
      obtain ⟨a, b, hab, ha⟩ := List.eq_append_cons_of_mem h
      exact ⟨a, b, hab, ha⟩
    subst hab
    have e1 := (takeWhile_dropWhile_append a '%' (b ++ '%' :: y) ha).2
    have e2 := (takeWhile_dropWhile_append a '%' b ha).2
    simp only [field_tokens]
    rw [List.append_assoc, List.cons_append, e1, e2, ← List.cons_append, segments_append]
  · have e1 := (takeWhile_dropWhile_append x '%' y h).2
    have e2 := (takeWhile_ne_of_not_mem x '%' h).2
    simp only [field_tokens]
    rw [e1, e2, segments_cons_delim, segments_nil, List.nil_append]

theorem segments_token_then (tok t2 : CStr) (hne : tok ≠ []) (hfree : '%' ∉ tok)
    (hend : t2 = [] ∨ ∃ r, t2 = '%' :: r) :
    segments '%' (tok ++ t2) = tok :: segments '%' t2 := by
  rcases hend with h0 | ⟨r, hr⟩
  · subst h0
    rw [List.append_nil, segments_single '%' tok hne hfree, segments_nil]
  · subst hr
    rw [segments_append_delim '%' tok r hne hfree, segments_cons_delim]

theorem field_tokens_append_end (t1 t2 : CStr) (hend : t2 = [] ∨ ∃ r, t2 = '%' :: r) :
    field_tokens (t1 ++ t2) = field_tokens t1 ++ segments '%' t2 := by
  rcases hend with h0 | ⟨r, hr⟩
  · subst h0; simp [segments_nil]
  · subst hr; rw [field_tokens_append, segments_cons_delim]

theorem literal_entry_append (t1 x y : CStr) (hne : t1 ≠ [])
    (hx : x = [] ∨ ∃ r, x = '%' :: r) (hy : y = [] ∨ ∃ r, y = '%' :: r) :
    literal_entry (t1 ++ x) = literal_entry (t1 ++ y) := by
  have key : ∀ z : CStr, (z = [] ∨ ∃ r, z = '%' :: r) →
      literal_entry (t1 ++ z) = literal_entry t1 := by
    intro z hz
    cases t1 with
    | nil => exact absurd rfl hne
    | cons c cs =>
      have hc : charAt (c :: cs ++ z) 0 = charAt (c :: cs) 0 := by simp [charAt]
      have ht : (c :: cs ++ z).takeWhile (fun a => !(a == '%')) =
          (c :: cs).takeWhile (fun a => !(a == '%')) := by
        rcases hz with h0 | ⟨r, hr⟩
        · subst h0; simp
        · subst hr
          by_cases hm : '%' ∈ c :: cs
          · obtain ⟨a, b, hab, ha⟩ := List.eq_append_cons_of_mem hm
            rw [hab, List.append_assoc, List.cons_append,
              (takeWhile_dropWhile_append a '%' _ ha).1,
              (takeWhile_dropWhile_append a '%' _ ha).1]
          · rw [(takeWhile_dropWhile_append _ '%' r hm).1,
              (takeWhile_ne_of_not_mem _ '%' hm).1]
      simp only [literal_entry, hc, ht]
  rw [key x hx, key y hy]

theorem token_spec_kind (tok : CStr) (c : ColumnSpec) (h : token_spec tok = some c) :
    c.kind ≠ FieldKind.literal := by
  simp only [token_spec, Option.map_eq_some'] at h
  obtain ⟨k, hk, hc⟩ := h
  have hmem := field_kind_some_mem _ (by rw [hk]; rfl)
  have hall : ∀ x ∈ ['a', 'A', 'c', 'd', 'D', 'f', 'F', 'g', 'h', 'l', 'm', 'N', 'P', 'r',
      'R', 's', 't', 'T', 'w'], field_kind x ≠ some FieldKind.literal := by decide
  have := hall _ hmem
  rw [hk] at this
  rw [← hc]
  exact fun e => this (by simpa using e)

theorem real_columns_filterMap (toks : List CStr) :
    real_columns (toks.filterMap token_spec) = toks.filterMap token_spec := by
  apply List.filter_eq_self.mpr
  intro c hc
  obtain ⟨t, _, ht⟩ := List.mem_filterMap.mp hc
  simpa using token_spec_kind t c ht

theorem real_columns_literal_entry (fmt : CStr) : real_columns (literal_entry fmt) = [] := by
  unfold literal_entry real_columns
  split_ifs <;> simp

/-! ## Flags and the kinds that occur in the format list -/

/-- For a flag `proj` that is set by exactly the kinds in `S`: after a run of
tokens the flag is set when it was set before or a column of a kind in `S`
was appended. -/
theorem flag_fold (proj : MatchFlags → Bool) (S : FieldKind → Bool)
    (hproj : ∀ k m, proj (flag_for k m) = (proj m || S k)) (toks : List CStr)
    (m : MatchFlags) :
    proj (toks.foldl token_flags m) = true ↔
      proj m = true ∨ ∃ c ∈ toks.filterMap token_spec, S c.kind = true := by
  induction toks generalizing m with
  | nil => simp
  | cons t ts ih =>
    rw [List.foldl_cons, ih]
    cases hk : field_kind ( _parse_token t).field with
    | none =>
      have h1 : token_flags m t = m := by simp [token_flags, hk]
      have h2 : token_spec t = Option.none := by simp [token_spec, hk]
      rw [h1, List.filterMap_cons, h2]
    | some k =>
      have h1 : token_flags m t = flag_for k m := by simp [token_flags, hk]
      have h2 : token_spec t = some ⟨k, ( _parse_token t).field_size,
          ( _parse_token t).right_justify, ( _parse_token t).suffix.getD []⟩ := by
        simp [token_spec, hk]
      rw [h1, List.filterMap_cons, h2, hproj]
      simp only [Bool.or_eq_true, List.mem_cons, exists_eq_or_imp]
      tauto

/-- The flag `proj`, set by exactly the kinds in `S` (the literal kind not
among them), is set after `_parse_format` started with no flag set exactly
when the format list holds a column of a kind in `S`. -/
theorem flag_iff_kind (proj : MatchFlags → Bool) (S : FieldKind → Bool)
    (hproj : ∀ k m, proj (flag_for k m) = (proj m || S k))
    (hnone : proj MatchFlags.none = false) (hlit : S FieldKind.literal = false)
    (fmt : CStr) :
    proj ((field_tokens fmt).foldl token_flags MatchFlags.none) = true ↔
      ∃ c ∈ literal_entry fmt ++ (field_tokens fmt).filterMap token_spec,
        S c.kind = true := by
  rw [flag_fold proj S hproj, hnone]
  simp only [Bool.false_eq_true, false_or, List.mem_append]
  constructor
  · rintro ⟨c, hc, hs⟩
    exact ⟨c, Or.inr hc, hs⟩
  · rintro ⟨c, hc | hc, hs⟩
    · exfalso
      unfold literal_entry at hc
      split_ifs at hc
      · exact absurd hc (List.not_mem_nil c)
      · rw [List.mem_singleton] at hc
        rw [hc, hlit] at hs
        exact absurd hs (by simp)
    · exact ⟨c, hc, hs⟩

/-- C5: started with all ten flags false, `_parse_format` returns with each
flag true exactly when the format list holds a column of a corresponding
kind. -/
theorem parse_format_flags_iff (fmt : CStr) (list0 : List ColumnSpec) (err0 : List CStr) :
    ∃ r, _parse_format (some fmt) ⟨list0, MatchFlags.none, err0⟩ = Outcome.returned r ∧
      (r.params.match_flags.avail_flag = true ↔
        ∃ c ∈ r.params.format_list, c.kind = FieldKind.avail) ∧
      (r.params.match_flags.features_flag = true ↔
        ∃ c ∈ r.params.format_list, c.kind = FieldKind.features) ∧
      (r.params.match_flags.groups_flag = true ↔
        ∃ c ∈ r.params.format_list, c.kind = FieldKind.groups) ∧
      (r.params.match_flags.share_flag = true ↔
        ∃ c ∈ r.params.format_list, c.kind = FieldKind.share) ∧
      (r.params.match_flags.max_time_flag = true ↔
        ∃ c ∈ r.params.format_list, c.kind = FieldKind.time) ∧
      (r.params.match_flags.partition_flag = true ↔
        ∃ c ∈ r.params.format_list, c.kind = FieldKind.partition) ∧
      (r.params.match_flags.root_flag = true ↔
        ∃ c ∈ r.params.format_list, c.kind = FieldKind.root) ∧
      (r.params.match_flags.reason_flag = true ↔
        ∃ c ∈ r.params.format_list, c.kind = FieldKind.reason) ∧
      (r.params.match_flags.job_size_flag = true ↔
        ∃ c ∈ r.params.format_list, c.kind = FieldKind.size) ∧
      (r.params.match_flags.state_flag = true ↔
        ∃ c ∈ r.params.format_list,
          c.kind = FieldKind.state_compact ∨ c.kind = FieldKind.state_long) := by
  refine ⟨_, parse_format_eq fmt _, ?_, ?_, ?_, ?_, ?_, ?_, ?_, ?_, ?_, ?_⟩
  · simpa using flag_iff_kind (fun m => m.avail_flag) (fun k => decide (k = FieldKind.avail))
      (by intro k m; cases k <;> simp [flag_for]) rfl rfl fmt
  · simpa using flag_iff_kind (fun m => m.features_flag)
      (fun k => decide (k = FieldKind.features))
      (by intro k m; cases k <;> simp [flag_for]) rfl rfl fmt
  · simpa using flag_iff_kind (fun m => m.groups_flag) (fun k => decide (k = FieldKind.groups))
      (by intro k m; cases k <;> simp [flag_for]) rfl rfl fmt
  · simpa using flag_iff_kind (fun m => m.share_flag) (fun k => decide (k = FieldKind.share))
      (by intro k m; cases k <;> simp [flag_for]) rfl rfl fmt
  · simpa using flag_iff_kind (fun m => m.max_time_flag) (fun k => decide (k = FieldKind.time))
      (by intro k m; cases k <;> simp [flag_for]) rfl rfl fmt
  · simpa using flag_iff_kind (fun m => m.partition_flag)
      (fun k => decide (k = FieldKind.partition))
      (by intro k m; cases k <;> simp [flag_for]) rfl rfl fmt
  · simpa using flag_iff_kind (fun m => m.root_flag) (fun k => decide (k = FieldKind.root))
      (by intro k m; cases k <;> simp [flag_for]) rfl rfl fmt
  · simpa using flag_iff_kind (fun m => m.reason_flag) (fun k => decide (k = FieldKind.reason))
      (by intro k m; cases k <;> simp [flag_for]) rfl rfl fmt
  · simpa using flag_iff_kind (fun m => m.job_size_flag) (fun k => decide (k = FieldKind.size))
      (by intro k m; cases k <;> simp [flag_for]) rfl rfl fmt
  · simpa using flag_iff_kind (fun m => m.state_flag)
      (fun k => decide (k = FieldKind.state_compact) || decide (k = FieldKind.state_long))
      (by intro k m; cases k <;> simp [flag_for]) rfl rfl fmt

theorem parse_format_flags_example :
    _parse_format (some "%9P %.5a %N".toList) Params.init =
      Outcome.returned
        ⟨SLURM_SUCCESS,
         ⟨[⟨FieldKind.partition, 9, false, [' ']⟩, ⟨FieldKind.avail, 5, true, [' ']⟩,
           ⟨FieldKind.node_list, 0, false, []⟩],
          { MatchFlags.none with partition_flag := true, avail_flag := true }, []⟩,
         "%9P %.5a %N".toList⟩ := by
  decide

/-! ## The fatal exit of `_parse_format` -/

/-- C6, as the code has it: `_parse_format` terminates the process exactly
when the format is `NULL`, with exit status 1 after printing the diagnostic;
for every string, the empty one included, it returns `SLURM_SUCCESS`. -/
theorem parse_format_fatal_iff (format : Option CStr) (p : Params) :
    ((∃ n e, _parse_format format p = Outcome.exited n e) ↔ format = Option.none) ∧
    (format = Option.none →
      _parse_format format p = Outcome.exited 1 (p.stderr ++ [lacks_specification_msg])) ∧
    (∀ fmt, format = some fmt →
      ∃ r, _parse_format format p = Outcome.returned r ∧ r.rc = SLURM_SUCCESS) := by
  cases format with
  | none =>
    refine ⟨⟨fun _ => rfl, fun _ => ⟨1, _, rfl⟩⟩, fun _ => rfl, ?_⟩
    intro fmt h; exact absurd h (by simp)
  | some fmt =>
    refine ⟨⟨?_, fun h => absurd h (by simp)⟩, fun h => absurd h (by simp), ?_⟩
    · rintro ⟨n, e, h⟩
      rw [parse_format_eq] at h
      exact absurd h (by simp)
    · intro f hf
      exact ⟨_, parse_format_eq fmt p, rfl⟩

/-- C6 as stated fails for the empty template: `_parse_format` does not
terminate the process on it but returns, with a format list that holds one
literal entry with empty text. -/
theorem parse_format_empty_returns :
    _parse_format (some []) Params.init =
      Outcome.returned
        ⟨SLURM_SUCCESS, ⟨[⟨FieldKind.literal, 0, false, []⟩], MatchFlags.none, []⟩, []⟩ ∧
    ¬ ∃ n e, _parse_format (some []) Params.init = Outcome.exited n e := by
  refine ⟨by decide, ?_⟩
  rintro ⟨n, e, h⟩
  rw [parse_format_eq] at h
  exact absurd h (by simp)

/-! ## `strcasecmp` and the expansion of `all` -/

theorem strcasecmp_eq_zero_iff (a b : CStr) : strcasecmp a b = 0 ↔ eq_ignore_case a b := by
  induction a generalizing b with
  | nil =>
    cases b with
    | nil => simp [strcasecmp, eq_ignore_case]
    | cons y ys => simp [strcasecmp, eq_ignore_case]
  | cons x xs ih =>
    cases b with
    | nil => simp [strcasecmp, eq_ignore_case]
    | cons y ys =>
      by_cases h : tolower x = tolower y
      · have := ih ys
        simp only [strcasecmp, h, if_true, this, eq_ignore_case, List.map_cons,
          List.cons.injEq, true_and]
      · have hne : ¬ eq_ignore_case (x :: xs) (y :: ys) := by
          simp [eq_ignore_case, h]
        simp only [strcasecmp, h, if_false, hne, iff_false]
        split_ifs <;> simp

theorem foldl_append_singleton (f : Nat → Nat) (xs : List Nat) (acc : List Nat) :
    xs.foldl (fun l i => l ++ [f i]) acc = acc ++ xs.map f := by
  induction xs generalizing acc with
  | nil => simp
  | cons x xs ih => simp [ih]

theorem build_all_states_list_eq (ns : NodeStates) (h : ns.NODE_STATE_END ≤ 65536) :
    _build_all_states_list ns = List.range ns.NODE_STATE_END := by
  unfold _build_all_states_list
  rw [foldl_append_singleton, List.nil_append]
  conv_rhs => rw [← List.map_id (List.range ns.NODE_STATE_END)]
  apply List.map_congr_left
  intro i hi
  have := List.mem_range.mp hi
  simp only [to_uint16, id]
  omega

/-- C7: for every string equal to `all` ignoring case, and whatever the name
tables are, `_build_state_list` returns the codes `0, ..., NODE_STATE_END - 1`
in ascending order, each once (the codes being representable in the
`uint16_t` the list stores). -/
theorem build_state_list_all (ns : NodeStates) (s : CStr)
    (hfit : ns.NODE_STATE_END ≤ 65536) (hall : eq_ignore_case s "all".toList) :
    ∃ l, _build_state_list ns (some s) = Outcome.returned (some l) ∧
      l = List.range ns.NODE_STATE_END ∧ l.length = ns.NODE_STATE_END ∧
      l.Pairwise (· < ·) ∧ ∀ i, i ∈ l ↔ i < ns.NODE_STATE_END := by
  have h0 : strcasecmp s "all".toList = 0 := (strcasecmp_eq_zero_iff _ _).mpr hall
  refine ⟨List.range ns.NODE_STATE_END, ?_, rfl, List.length_range _,
    List.pairwise_lt_range _, fun i => List.mem_range⟩
  simp only [_build_state_list, h0, if_true, build_all_states_list_eq ns hfit]

theorem build_state_list_all_witness :
    sample_states.NODE_STATE_END ≤ 65536 ∧ eq_ignore_case "aLL".toList "all".toList ∧
    ∃ l, _build_state_list sample_states (some "aLL".toList) = Outcome.returned (some l) ∧
      l = List.range sample_states.NODE_STATE_END ∧
      l.length = sample_states.NODE_STATE_END ∧
      l.Pairwise (· < ·) ∧ ∀ i, i ∈ l ↔ i < sample_states.NODE_STATE_END :=
  ⟨by decide, by decide,
    build_state_list_all sample_states "aLL".toList (by decide) (by decide)⟩

/-! ## The loop of `_build_state_list` -/

/-- Started on what `strtok_r` yields for `s`, the state loop runs over the
segments of `s` from left to right. -/
theorem build_state_loop_eq (ns : NodeStates) (fuel : Nat) (s : CStr) (acc : List Nat)
    (hfuel : s.length ≤ fuel) :
    build_state_loop ns fuel (strtok_r s [',']).1 (strtok_r s [',']).2 acc =
      resolve_tokens ns (segments ',' s) acc := by
  induction fuel generalizing s acc with
  | zero =>
    have hs : s = [] := List.length_eq_zero.mp (Nat.le_zero.mp hfuel)
    subst hs
    simp [strtok_r_nil, segments_nil, build_state_loop, resolve_tokens]
  | succ n ih =>
    obtain ⟨h1, h2, h3⟩ := strtok_r_segments ',' s
    cases hseg : segments ',' s with
    | nil =>
      rw [hseg] at h1
      simp only [List.head?_nil] at h1
      rw [h1]
      simp [build_state_loop, resolve_tokens]
    | cons t ts =>
      rw [hseg] at h1 h2
      simp only [List.head?_cons, List.tail_cons] at h1 h2
      rw [h1]
      simp only [build_state_loop, resolve_tokens]
      split_ifs with hrc
      · rfl
      · rw [ih _ _ (by omega), h2]

theorem resolve_tokens_ok (ns : NodeStates) (toks : List CStr) (acc : List Nat)
    (h : ∀ t ∈ toks, ( _parse_state ns t 0).rc = SLURM_SUCCESS) :
    resolve_tokens ns toks acc =
      Outcome.returned (acc ++ toks.map (fun t => ( _parse_state ns t 0).states)) := by
  induction toks generalizing acc with
  | nil => simp [resolve_tokens]
  | cons t ts ih =>
    have ht := h t (List.mem_cons_self t ts)
    simp only [resolve_tokens, ht, ne_eq, not_true_eq_false, if_false]
    rw [ih _ (fun u hu => h u (List.mem_cons_of_mem t hu))]
    simp

theorem resolve_tokens_fail (ns : NodeStates) (toks : List CStr) (acc : List Nat)
    (h : ∃ t ∈ toks, ( _parse_state ns t 0).rc ≠ SLURM_SUCCESS) :
    ∃ e, resolve_tokens ns toks acc = Outcome.exited 1 e := by
  induction toks generalizing acc with
  | nil => obtain ⟨t, ht, _⟩ := h; exact absurd ht (List.not_mem_nil t)
  | cons t ts ih =>
    by_cases ht : ( _parse_state ns t 0).rc = SLURM_SUCCESS
    · simp only [resolve_tokens, ht, ne_eq, not_true_eq_false, if_false]
      apply ih
      obtain ⟨u, hu, hrc⟩ := h
      rcases List.mem_cons.mp hu with e | e
      · subst e; exact absurd ht hrc
      · exact ⟨u, e, hrc⟩
    · exact ⟨( _parse_state ns t 0).stderr, by simp [resolve_tokens, ht]⟩

/-- The function `_build_state_list` on a string that is not `all`: the loop
runs over the segments of the string between commas. -/
theorem build_state_list_eq (ns : NodeStates) (s : CStr)
    (hnot : ¬ eq_ignore_case s "all".toList) :
    _build_state_list ns (some s) =
      match resolve_tokens ns (segments ',' s) [] with
      | Outcome.returned l => Outcome.returned (some l)
      | Outcome.exited n e => Outcome.exited n e
      | Outcome.out_of_fuel => Outcome.out_of_fuel := by
  have h0 : strcasecmp s "all".toList ≠ 0 := fun h => hnot ((strcasecmp_eq_zero_iff _ _).mp h)
  simp only [_build_state_list, h0, if_false]
  rw [build_state_loop_eq ns _ s [] (Nat.le_succ _)]

theorem segments_intercalate (d : Char) (toks : List CStr)
    (h : ∀ t ∈ toks, t ≠ [] ∧ d ∉ t) :
    segments d ([d].intercalate toks) = toks := by
  cases toks with
  | nil => simp [List.intercalate, segments]
  | cons t ts =>
    have hs : ([d].intercalate (t :: ts)).splitOn d = t :: ts :=
      List.splitOn_intercalate _ d (fun l hl => (h l hl).2) (List.cons_ne_nil t ts)
    rw [segments, hs]
    apply List.filter_eq_self.mpr
    intro l hl
    have := (h l hl).1
    cases l with
    | nil => exact absurd rfl this
    | cons => rfl

/-! ## State lists that are not `all` -/

/-- C8: for a list of tokens, each non-empty, free of commas and resolved by
`_parse_state`, whose comma-joined text is not `all` ignoring case,
`_build_state_list` returns a list of the same length whose `i`-th element is
the code of the `i`-th token: input order is kept and nothing is
deduplicated. -/
theorem build_state_list_tokens (ns : NodeStates) (toks : List CStr)
    (htok : ∀ t ∈ toks, t ≠ [] ∧ ',' ∉ t ∧ ( _parse_state ns t 0).rc = SLURM_SUCCESS)
    (hnot : ¬ eq_ignore_case ([','].intercalate toks) "all".toList) :
    ∃ l, _build_state_list ns (some ([','].intercalate toks)) = Outcome.returned (some l) ∧
      l.length = toks.length ∧
      l = toks.map (fun t => ( _parse_state ns t 0).states) := by
  refine ⟨toks.map (fun t => ( _parse_state ns t 0).states), ?_, List.length_map _ _, rfl⟩
  rw [build_state_list_eq ns _ hnot,
    segments_intercalate ',' toks (fun t ht => ⟨(htok t ht).1, (htok t ht).2.1⟩),
    resolve_tokens_ok ns toks [] (fun t ht => (htok t ht).2.2)]
  simp

theorem build_state_list_tokens_witness :
    (∀ t ∈ ["IDLE".toList, "down".toList],
      t ≠ [] ∧ ',' ∉ t ∧ ( _parse_state sample_states t 0).rc = SLURM_SUCCESS) ∧
    ¬ eq_ignore_case ([','].intercalate ["IDLE".toList, "down".toList]) "all".toList ∧
    (∃ l, _build_state_list sample_states
        (some ([','].intercalate ["IDLE".toList, "down".toList])) =
          Outcome.returned (some l) ∧
      l.length = ["IDLE".toList, "down".toList].length ∧
      l = ["IDLE".toList, "down".toList].map
        (fun t => ( _parse_state sample_states t 0).states)) ∧
    _build_state_list sample_states (some "IDLE,down".toList) =
      Outcome.returned (some [2, 0]) ∧
    _build_state_list sample_states (some "idle,comp,IDLE".toList) =
      Outcome.returned (some [2, 6, 2]) :=
  ⟨by decide, by decide,
    build_state_list_tokens sample_states ["IDLE".toList, "down".toList] (by decide)
      (by decide),
    by decide, by decide⟩

theorem mem_segments (d : Char) (s t : CStr) :
    t ∈ segments d s ↔ t ∈ s.splitOn d ∧ t ≠ [] := by
  unfold segments
  rw [List.mem_filter]
  cases t <;> simp

/-- C9, as the code has it: for a text that is not `all` ignoring case,
`_build_state_list` terminates the process exactly when one of the non-empty
pieces into which the commas split the text is not resolved by
`_parse_state`, and then with exit status 1. Otherwise it returns the codes
of the non-empty pieces in their order; empty pieces are never looked up.
For `NULL` it returns `NULL`. -/
theorem build_state_list_fatal_iff (ns : NodeStates) (text : CStr)
    (hnot : ¬ eq_ignore_case text "all".toList) :
    ((∃ e, _build_state_list ns (some text) = Outcome.exited 1 e) ↔
      ∃ t ∈ text.splitOn ',', t ≠ [] ∧ ( _parse_state ns t 0).rc ≠ SLURM_SUCCESS) ∧
    ((¬ ∃ t ∈ text.splitOn ',', t ≠ [] ∧ ( _parse_state ns t 0).rc ≠ SLURM_SUCCESS) →
      _build_state_list ns (some text) =
        Outcome.returned (some (((text.splitOn ',').filter (fun t => !t.isEmpty)).map
          (fun t => ( _parse_state ns t 0).states)))) ∧
    (∀ n e, _build_state_list ns (some text) = Outcome.exited n e → n = 1) ∧
    _build_state_list ns Option.none = Outcome.returned Option.none := by
  have hiff : (∃ t ∈ text.splitOn ',', t ≠ [] ∧ ( _parse_state ns t 0).rc ≠ SLURM_SUCCESS) ↔
      ∃ t ∈ segments ',' text, ( _parse_state ns t 0).rc ≠ SLURM_SUCCESS := by
    constructor
    · rintro ⟨t, h1, h2, h3⟩
      exact ⟨t, (mem_segments ',' text t).mpr ⟨h1, h2⟩, h3⟩
    · rintro ⟨t, h1, h3⟩
      obtain ⟨h1, h2⟩ := (mem_segments ',' text t).mp h1
      exact ⟨t, h1, h2, h3⟩
  rw [hiff]
  have hall : (¬ ∃ t ∈ segments ',' text, ( _parse_state ns t 0).rc ≠ SLURM_SUCCESS) →
      _build_state_list ns (some text) =
        Outcome.returned (some ((segments ',' text).map
          (fun t => ( _parse_state ns t 0).states))) := by
    intro h
    have h1 : ∀ t ∈ segments ',' text, ( _parse_state ns t 0).rc = SLURM_SUCCESS := by
      intro t ht
      by_contra hc
      exact h ⟨t, ht, hc⟩
    rw [build_state_list_eq ns _ hnot, resolve_tokens_ok ns _ [] h1]
    simp
  have hfail : (∃ t ∈ segments ',' text, ( _parse_state ns t 0).rc ≠ SLURM_SUCCESS) →
      ∃ e, _build_state_list ns (some text) = Outcome.exited 1 e := by
    intro h
    obtain ⟨e, he⟩ := resolve_tokens_fail ns _ [] h
    exact ⟨e, by rw [build_state_list_eq ns _ hnot, he]⟩
  refine ⟨⟨?_, hfail⟩, hall, ?_, rfl⟩
  · rintro ⟨e, he⟩
    by_contra hc
    rw [hall hc] at he
    exact absurd he (by simp)
  · intro n e he
    by_cases hc : ∃ t ∈ segments ',' text, ( _parse_state ns t 0).rc ≠ SLURM_SUCCESS
    · obtain ⟨e1, he1⟩ := hfail hc
      rw [he1] at he
      simp only [Outcome.exited.injEq] at he
      exact he.1.symm
    · rw [hall hc] at he
      exact absurd he (by simp)

theorem build_state_list_fatal_iff_witness :
    ¬ eq_ignore_case "bogus".toList "all".toList ∧
    (((∃ e, _build_state_list sample_states (some "bogus".toList) = Outcome.exited 1 e) ↔
      ∃ t ∈ "bogus".toList.splitOn ',',
        t ≠ [] ∧ ( _parse_state sample_states t 0).rc ≠ SLURM_SUCCESS) ∧
    ((¬ ∃ t ∈ "bogus".toList.splitOn ',',
        t ≠ [] ∧ ( _parse_state sample_states t 0).rc ≠ SLURM_SUCCESS) →
      _build_state_list sample_states (some "bogus".toList) =
        Outcome.returned (some ((("bogus".toList.splitOn ',').filter
          (fun t => !t.isEmpty)).map (fun t => ( _parse_state sample_states t 0).states)))) ∧
    (∀ n e, _build_state_list sample_states (some "bogus".toList) = Outcome.exited n e →
      n = 1) ∧
    _build_state_list sample_states Option.none = Outcome.returned Option.none) ∧
    _build_state_list sample_states (some "bogus".toList) =
      Outcome.exited 1
        ["Invalid node state specified: bogus\n".toList,
         ("Valid node states include: DOWN,UNKNOWN,IDLE,ALLOCATED,DRAINED,DRAINING," ++
           "COMPLETING\n").toList] ∧
    _build_state_list sample_states (some "idle,bogus,down".toList) =
      Outcome.exited 1
        ["Invalid node state specified: bogus\n".toList,
         ("Valid node states include: DOWN,UNKNOWN,IDLE,ALLOCATED,DRAINED,DRAINING," ++
           "COMPLETING\n").toList] :=
  ⟨by decide, build_state_list_fatal_iff sample_states "bogus".toList (by decide),
    by decide, by decide⟩

/-- C9 as stated fails when the split has an empty piece: the commas split
`idle,,down` into `idle`, the empty text and `down`, and the empty text is no
state name, yet `_build_state_list` does not terminate the process but
returns the codes of `idle` and `down`; likewise `,` and the empty text give
the empty list. -/
theorem build_state_list_empty_piece_counterexample :
    "idle,,down".toList.splitOn ',' = ["idle".toList, [], "down".toList] ∧
    ( _parse_state sample_states [] 0).rc = SLURM_ERROR ∧
    ¬ eq_ignore_case "idle,,down".toList "all".toList ∧
    _build_state_list sample_states (some "idle,,down".toList) =
      Outcome.returned (some [2, 0]) ∧
    ",".toList.splitOn ',' = [[], []] ∧
    _build_state_list sample_states (some ",".toList) = Outcome.returned (some []) ∧
    ([] : CStr).splitOn ',' = [[]] ∧
    _build_state_list sample_states (some []) = Outcome.returned (some []) := by
  decide

/-! ## `_parse_state` finds the least matching code -/

theorem scan_step_iff (ns : NodeStates) (str : CStr) (i : Nat) :
    (strcasecmp (ns.node_state_string i) str = 0 ∨
      strcasecmp (ns.node_state_string_compact i) str = 0) ↔ name_matches ns str i := by
  simp only [name_matches, strcasecmp_eq_zero_iff]

/-- The scan of `_parse_state` over the codes `i, ..., i + n - 1`: it yields
the least code in that range whose name matches, or nothing when no name in
the range matches. -/
theorem parse_state_scan_spec (ns : NodeStates) (str : CStr) (n i : Nat) :
    match parse_state_scan ns str n i with
    | some k => i ≤ k ∧ k < i + n ∧ name_matches ns str k ∧
        ∀ j, i ≤ j → j < k → ¬ name_matches ns str j
    | Option.none => ∀ j, i ≤ j → j < i + n → ¬ name_matches ns str j := by
  induction n generalizing i with
  | zero =>
    simp only [parse_state_scan]
    intro j h1 h2
    omega
  | succ n ih =>
    by_cases hm : name_matches ns str i
    · have hcase := (scan_step_iff ns str i).mpr hm
      have hres : parse_state_scan ns str (n + 1) i = some i := by
        simp only [parse_state_scan]
        by_cases h1 : strcasecmp (ns.node_state_string i) str = 0
        · simp [h1]
        · have h2 : strcasecmp (ns.node_state_string_compact i) str = 0 := by tauto
          simp [h1, h2]
      rw [hres]
      exact ⟨le_refl i, by omega, hm, fun j h1 h2 => by omega⟩
    · have hn := fun h => hm ((scan_step_iff ns str i).mp h)
      have h1 : ¬ strcasecmp (ns.node_state_string i) str = 0 := fun h => hn (Or.inl h)
      have h2 : ¬ strcasecmp (ns.node_state_string_compact i) str = 0 :=
        fun h => hn (Or.inr h)
      have hres : parse_state_scan ns str (n + 1) i = parse_state_scan ns str n (i + 1) := by
        simp only [parse_state_scan, h1, h2, if_false]
      rw [hres]
      have := ih (i + 1)
      cases hs : parse_state_scan ns str n (i + 1) with
      | none =>
        rw [hs] at this
        intro j hj1 hj2
        by_cases hji : j = i
        · subst hji; exact hm
        · exact this j (by omega) (by omega)
      | some k =>
        rw [hs] at this
        obtain ⟨a, b, c, d⟩ := this
        refine ⟨by omega, by omega, c, ?_⟩
        intro j hj1 hj2
        by_cases hji : j = i
        · subst hji; exact hm
        · exact d j (by omega) hj2

theorem parse_state_scan_compact_first_eq (ns : NodeStates) (str : CStr) (n i : Nat) :
    parse_state_scan_compact_first ns str n i = parse_state_scan ns str n i := by
  induction n generalizing i with
  | zero => rfl
  | succ n ih =>
    simp only [parse_state_scan_compact_first, parse_state_scan, ih]
    by_cases h1 : strcasecmp (ns.node_state_string i) str = 0 <;>
      by_cases h2 : strcasecmp (ns.node_state_string_compact i) str = 0 <;>
      simp [h1, h2]

/-- C10: whatever the name tables are (the codes being representable in a
`uint16_t`), `_parse_state` succeeds with code `i` exactly when `i` is the
least code whose verbose or compact name equals the token ignoring case; it
fails with `SLURM_ERROR` exactly when no code has such a name; and comparing
the compact name first gives the same result. -/
theorem parse_state_least_match (ns : NodeStates) (str : CStr) (st0 : Nat)
    (hfit : ns.NODE_STATE_END ≤ 65536) :
    (∀ i, (( _parse_state ns str st0).rc = SLURM_SUCCESS ∧
          ( _parse_state ns str st0).states = i) ↔
        (i < ns.NODE_STATE_END ∧ name_matches ns str i ∧
          ∀ j, j < i → ¬ name_matches ns str j)) ∧
    (( _parse_state ns str st0).rc = SLURM_ERROR ↔
      ∀ i, i < ns.NODE_STATE_END → ¬ name_matches ns str i) ∧
    (( _parse_state ns str st0).rc = SLURM_SUCCESS ∨
      ( _parse_state ns str st0).rc = SLURM_ERROR) ∧
    _parse_state_compact_first ns str st0 = _parse_state ns str st0 := by
  have hspec := parse_state_scan_spec ns str ns.NODE_STATE_END 0
  have hswap : _parse_state_compact_first ns str st0 = _parse_state ns str st0 := by
    simp only [_parse_state_compact_first, _parse_state, parse_state_scan_compact_first_eq]
  cases hs : parse_state_scan ns str ns.NODE_STATE_END 0 with
  | none =>
    rw [hs] at hspec
    have hno : ∀ i, i < ns.NODE_STATE_END → ¬ name_matches ns str i :=
      fun i hi => hspec i (Nat.zero_le i) (by omega)
    have hrc : ( _parse_state ns str st0).rc = SLURM_ERROR := by simp [_parse_state, hs]
    refine ⟨?_, ?_, Or.inr hrc, hswap⟩
    · intro i
      constructor
      · rintro ⟨h1, _⟩
        rw [hrc] at h1
        exact absurd h1 (by decide)
      · rintro ⟨h1, h2, _⟩
        exact absurd h2 (hno i h1)
    · exact ⟨fun _ => hno, fun _ => hrc⟩
  | some k =>
    rw [hs] at hspec
    obtain ⟨_, hk, hmk, hleast⟩ := hspec
    have hk' : k < ns.NODE_STATE_END := by omega
    have hrc : ( _parse_state ns str st0).rc = SLURM_SUCCESS := by simp [_parse_state, hs]
    have hst : ( _parse_state ns str st0).states = k := by
      simp only [_parse_state, hs, to_uint16]
      omega
    refine ⟨?_, ?_, Or.inl hrc, hswap⟩
    · intro i
      constructor
      · rintro ⟨_, h2⟩
        rw [hst] at h2
        subst h2
        exact ⟨hk', hmk, fun j hj => hleast j (Nat.zero_le j) hj⟩
      · rintro ⟨_, h2, h3⟩
        refine ⟨hrc, ?_⟩
        rw [hst]
        rcases Nat.lt_trichotomy k i with h | h | h
        · exact absurd hmk (h3 k h)
        · exact h
        · exact absurd h2 (hleast i (Nat.zero_le i) h)
    · rw [hrc]
      constructor
      · intro h; exact absurd h (by decide)
      · intro h; exact absurd hmk (h k hk')

theorem parse_state_least_match_witness :
    sample_states.NODE_STATE_END ≤ 65536 ∧
    ((∀ i, (( _parse_state sample_states "drng".toList 0).rc = SLURM_SUCCESS ∧
          ( _parse_state sample_states "drng".toList 0).states = i) ↔
        (i < sample_states.NODE_STATE_END ∧ name_matches sample_states "drng".toList i ∧
          ∀ j, j < i → ¬ name_matches sample_states "drng".toList j)) ∧
    (( _parse_state sample_states "drng".toList 0).rc = SLURM_ERROR ↔
      ∀ i, i < sample_states.NODE_STATE_END → ¬ name_matches sample_states "drng".toList i) ∧
    (( _parse_state sample_states "drng".toList 0).rc = SLURM_SUCCESS ∨
      ( _parse_state sample_states "drng".toList 0).rc = SLURM_ERROR) ∧
    _parse_state_compact_first sample_states "drng".toList 0 =
      _parse_state sample_states "drng".toList 0) ∧
    _parse_state sample_states "drng".toList 0 = ⟨SLURM_SUCCESS, 5, []⟩ ∧
    ( _parse_state sample_states "bogus".toList 0).rc = SLURM_ERROR :=
  ⟨by decide, parse_state_least_match sample_states "drng".toList 0 (by decide),
    by decide, by decide⟩

/-! ## Text after `all` -/

theorem not_all_of_longer (a s : CStr) (ha : eq_ignore_case a "all".toList) (hs : s ≠ []) :
    ¬ eq_ignore_case (a ++ s) "all".toList := by
  intro h
  have h1 := congrArg List.length ha
  have h2 := congrArg List.length h
  simp only [List.length_map, List.length_append] at h1 h2
  have : s.length = 0 := by omega
  exact hs (List.length_eq_zero.mp this)

/-- C11, as the code has it: for `a` equal to `all` ignoring case,
`_build_state_list` on `a ++ s` returns the codes `0, ..., NODE_STATE_END - 1`
when `s` is empty. When `s` is not empty the text after `all` is not
ignored: the whole string is split at commas and each non-empty piece is
resolved by `_parse_state`; the call returns the codes of the pieces in
their order when all are resolved, and terminates the process with exit
status 1 otherwise. -/
theorem build_state_list_all_then_text (ns : NodeStates) (a s : CStr)
    (hfit : ns.NODE_STATE_END ≤ 65536) (ha : eq_ignore_case a "all".toList) :
    (s = [] → _build_state_list ns (some (a ++ s)) =
      Outcome.returned (some (List.range ns.NODE_STATE_END))) ∧
    (s ≠ [] →
      (∀ t ∈ (a ++ s).splitOn ',', t ≠ [] → ( _parse_state ns t 0).rc = SLURM_SUCCESS) →
      _build_state_list ns (some (a ++ s)) =
        Outcome.returned (some ((((a ++ s).splitOn ',').filter (fun t => !t.isEmpty)).map
          (fun t => ( _parse_state ns t 0).states)))) ∧
    (s ≠ [] →
      (∃ t ∈ (a ++ s).splitOn ',', t ≠ [] ∧ ( _parse_state ns t 0).rc ≠ SLURM_SUCCESS) →
      ∃ e, _build_state_list ns (some (a ++ s)) = Outcome.exited 1 e) := by
  refine ⟨?_, ?_, ?_⟩
  · intro hs
    subst hs
    have h0 : strcasecmp (a ++ []) "all".toList = 0 := by
      rw [List.append_nil]; exact (strcasecmp_eq_zero_iff _ _).mpr ha
    simp only [_build_state_list, h0, if_true, build_all_states_list_eq ns hfit]
  · intro hs hok
    have h1 : ∀ t ∈ segments ',' (a ++ s), ( _parse_state ns t 0).rc = SLURM_SUCCESS := by
      intro t ht
      obtain ⟨hm, hne⟩ := (mem_segments ',' (a ++ s) t).mp ht
      exact hok t hm hne
    rw [build_state_list_eq ns _ (not_all_of_longer a s ha hs),
      resolve_tokens_ok ns _ [] h1]
    simp [segments]
  · rintro hs ⟨t, hm, hne, hrc⟩
    obtain ⟨e, he⟩ := resolve_tokens_fail ns (segments ',' (a ++ s)) []
      ⟨t, (mem_segments ',' (a ++ s) t).mpr ⟨hm, hne⟩, hrc⟩
    exact ⟨e, by rw [build_state_list_eq ns _ (not_all_of_longer a s ha hs), he]⟩

theorem build_state_list_all_then_text_witness :
    sample_states.NODE_STATE_END ≤ 65536 ∧ eq_ignore_case "ALL".toList "all".toList ∧
    ((",idle".toList = [] →
      _build_state_list sample_states (some ("ALL".toList ++ ",idle".toList)) =
        Outcome.returned (some (List.range sample_states.NODE_STATE_END))) ∧
    (",idle".toList ≠ [] →
      (∀ t ∈ ("ALL".toList ++ ",idle".toList).splitOn ',', t ≠ [] →
        ( _parse_state sample_states t 0).rc = SLURM_SUCCESS) →
      _build_state_list sample_states (some ("ALL".toList ++ ",idle".toList)) =
        Outcome.returned (some (((("ALL".toList ++ ",idle".toList).splitOn ',').filter
          (fun t => !t.isEmpty)).map (fun t => ( _parse_state sample_states t 0).states)))) ∧
    (",idle".toList ≠ [] →
      (∃ t ∈ ("ALL".toList ++ ",idle".toList).splitOn ',',
        t ≠ [] ∧ ( _parse_state sample_states t 0).rc ≠ SLURM_SUCCESS) →
      ∃ e, _build_state_list sample_states (some ("ALL".toList ++ ",idle".toList)) =
        Outcome.exited 1 e)) ∧
    _build_state_list sample_states (some "ALL,idle".toList) =
      Outcome.exited 1 ( _parse_state sample_states "ALL".toList 0).stderr ∧
    _build_state_list sample_states (some "all".toList) =
      Outcome.returned (some [0, 1, 2, 3, 4, 5, 6]) :=
  ⟨by decide, by decide,
    build_state_list_all_then_text sample_states "ALL".toList ",idle".toList (by decide)
      (by decide),
    by decide, by decide⟩

/-- C11 as stated fails: with the sample tables, `all,idle` does not expand to
all states but terminates the process (`all` is no state name), and
`allocated`, which also begins with `all`, yields the single code 3. -/
theorem build_state_list_all_prefix_counterexample :
    _build_state_list sample_states (some "all,idle".toList) =
      Outcome.exited 1 ( _parse_state sample_states "all".toList 0).stderr ∧
    _build_state_list sample_states (some "allocated".toList) =
      Outcome.returned (some [3]) ∧
    _build_state_list sample_states (some "all".toList) =
      Outcome.returned (some [0, 1, 2, 3, 4, 5, 6]) := by
  decide

/-! ## Running the compilers twice -/

theorem MatchFlags.eq_of_fields (a b : MatchFlags)
    (h1 : a.avail_flag = b.avail_flag) (h2 : a.features_flag = b.features_flag)
    (h3 : a.groups_flag = b.groups_flag) (h4 : a.job_size_flag = b.job_size_flag)
    (h5 : a.max_time_flag = b.max_time_flag) (h6 : a.partition_flag = b.partition_flag)
    (h7 : a.reason_flag = b.reason_flag) (h8 : a.root_flag = b.root_flag)
    (h9 : a.share_flag = b.share_flag) (h10 : a.state_flag = b.state_flag) : a = b := by
  cases a; cases b; simp only at *
  simp [*]

/-- A flag set by exactly the kinds in `S` is not changed by running the same
tokens a second time. -/
theorem flag_fold_twice (proj : MatchFlags → Bool) (S : FieldKind → Bool)
    (hproj : ∀ k m, proj (flag_for k m) = (proj m || S k)) (toks : List CStr)
    (m : MatchFlags) :
    proj (toks.foldl token_flags (toks.foldl token_flags m)) =
      proj (toks.foldl token_flags m) := by
  rw [Bool.eq_iff_iff, flag_fold proj S hproj toks (toks.foldl token_flags m),
    flag_fold proj S hproj toks m]
  tauto

theorem token_flags_twice (toks : List CStr) (m : MatchFlags) :
    toks.foldl token_flags (toks.foldl token_flags m) = toks.foldl token_flags m := by
  apply MatchFlags.eq_of_fields
  · exact flag_fold_twice (fun m => m.avail_flag) (fun k => decide (k = FieldKind.avail))
      (by intro k m; cases k <;> simp [flag_for]) toks m
  · exact flag_fold_twice (fun m => m.features_flag)
      (fun k => decide (k = FieldKind.features))
      (by intro k m; cases k <;> simp [flag_for]) toks m
  · exact flag_fold_twice (fun m => m.groups_flag) (fun k => decide (k = FieldKind.groups))
      (by intro k m; cases k <;> simp [flag_for]) toks m
  · exact flag_fold_twice (fun m => m.job_size_flag) (fun k => decide (k = FieldKind.size))
      (by intro k m; cases k <;> simp [flag_for]) toks m
  · exact flag_fold_twice (fun m => m.max_time_flag) (fun k => decide (k = FieldKind.time))
      (by intro k m; cases k <;> simp [flag_for]) toks m
  · exact flag_fold_twice (fun m => m.partition_flag)
      (fun k => decide (k = FieldKind.partition))
      (by intro k m; cases k <;> simp [flag_for]) toks m
  · exact flag_fold_twice (fun m => m.reason_flag) (fun k => decide (k = FieldKind.reason))
      (by intro k m; cases k <;> simp [flag_for]) toks m
  · exact flag_fold_twice (fun m => m.root_flag) (fun k => decide (k = FieldKind.root))
      (by intro k m; cases k <;> simp [flag_for]) toks m
  · exact flag_fold_twice (fun m => m.share_flag) (fun k => decide (k = FieldKind.share))
      (by intro k m; cases k <;> simp [flag_for]) toks m
  · exact flag_fold_twice (fun m => m.state_flag)
      (fun k => decide (k = FieldKind.state_compact) || decide (k = FieldKind.state_long))
      (by intro k m; cases k <;> simp [flag_for]) toks m

/-- The buffer that `_parse_format` leaves behind compiles to the same tokens
as the format it was given, and has no literal text unless it has no `%`. -/
theorem buffer_after (fmt : CStr) :
    field_tokens (if '%' ∈ fmt then fmt.dropWhile (fun c => !(c == '%')) else fmt) =
      field_tokens fmt ∧
    literal_entry (if '%' ∈ fmt then fmt.dropWhile (fun c => !(c == '%')) else fmt) =
      (if '%' ∈ fmt then [] else literal_entry fmt) ∧
    (if '%' ∈ (if '%' ∈ fmt then fmt.dropWhile (fun c => !(c == '%')) else fmt) then
        (if '%' ∈ fmt then fmt.dropWhile (fun c => !(c == '%')) else fmt).dropWhile
          (fun c => !(c == '%'))
      else (if '%' ∈ fmt then fmt.dropWhile (fun c => !(c == '%')) else fmt)) =
      (if '%' ∈ fmt then fmt.dropWhile (fun c => !(c == '%')) else fmt) := by
  by_cases h : '%' ∈ fmt
  · obtain ⟨r, hr⟩ := dropWhile_of_mem fmt '%' h
    simp [h, hr, field_tokens, literal_entry, charAt]
  · simp [h]

/-- C12 as stated fails for a template with literal text before its first
`%`: the first run on `Header: %.3t,` yields the literal entry and a column
and leaves `%.3t,` in the buffer, and the second run, on that buffer, yields
the column alone. -/
theorem parse_format_twice_counterexample :
    _parse_format (some "Header: %.3t,".toList) Params.init =
      Outcome.returned
        ⟨SLURM_SUCCESS,
         ⟨[⟨FieldKind.literal, 0, false, "Header: ".toList⟩,
           ⟨FieldKind.state_compact, 3, true, [',']⟩],
          { MatchFlags.none with state_flag := true }, []⟩,
         "%.3t,".toList⟩ ∧
    _parse_format (some "%.3t,".toList)
        ⟨[⟨FieldKind.literal, 0, false, "Header: ".toList⟩,
          ⟨FieldKind.state_compact, 3, true, [',']⟩],
         { MatchFlags.none with state_flag := true }, []⟩ =
      Outcome.returned
        ⟨SLURM_SUCCESS,
         ⟨[⟨FieldKind.state_compact, 3, true, [',']⟩],
          { MatchFlags.none with state_flag := true }, []⟩,
         "%.3t,".toList⟩ ∧
    ([⟨FieldKind.literal, 0, false, "Header: ".toList⟩,
      ⟨FieldKind.state_compact, 3, true, [',']⟩] : List ColumnSpec) ≠
      [⟨FieldKind.state_compact, 3, true, [',']⟩] := by
  decide

/-! ## Shape of the format list -/

theorem charAt_zero_iff_head (s : CStr) : charAt s 0 = '%' ↔ s.head? = some '%' := by
  cases s with
  | nil => simp [charAt, NUL]
  | cons x xs => simp [charAt]

/-- C13: in the format list that `_parse_format` returns, every entry after
the first is a real field (never the literal entry), and the first entry is
the literal entry exactly when the template does not begin with `%`; its
text is then the text before the first `%`. -/
theorem parse_format_literal_first (fmt : CStr) (p : Params) :
    ∃ r, _parse_format (some fmt) p = Outcome.returned r ∧
      (∀ c ∈ r.params.format_list.tail, c.kind ≠ FieldKind.literal) ∧
      ((∃ c, r.params.format_list.head? = some c ∧ c.kind = FieldKind.literal) ↔
        fmt.head? ≠ some '%') ∧
      (fmt.head? ≠ some '%' →
        r.params.format_list.head? =
          some ⟨FieldKind.literal, 0, false, fmt.takeWhile (fun c => !(c == '%'))⟩) := by
  refine ⟨_, parse_format_eq fmt p, ?_⟩
  have hreal : ∀ c ∈ (field_tokens fmt).filterMap token_spec, c.kind ≠ FieldKind.literal := by
    intro c hc
    obtain ⟨t, _, ht⟩ := List.mem_filterMap.mp hc
    exact token_spec_kind t c ht
  by_cases h : charAt fmt 0 = '%'
  · have hh := (charAt_zero_iff_head fmt).mp h
    have hl : literal_entry fmt = [] := by simp [literal_entry, h]
    simp only [hl, List.nil_append, hh, ne_eq, not_true_eq_false, iff_false, false_implies,
      and_true, not_exists, not_and]
    refine ⟨fun c hc => hreal c (List.mem_of_mem_tail hc), ?_⟩
    intro c hc
    exact hreal c (List.mem_of_mem_head? hc)
  · have hh : fmt.head? ≠ some '%' := fun e => h ((charAt_zero_iff_head fmt).mpr e)
    have hl : literal_entry fmt =
        [⟨FieldKind.literal, 0, false, fmt.takeWhile (fun c => !(c == '%'))⟩] := by
      simp [literal_entry, h]
    simp only [hl, List.singleton_append, List.tail_cons, List.head?_cons, ne_eq, hh,
      not_false_eq_true, iff_true, true_implies, and_true]
    exact ⟨hreal, ⟨_, rfl, rfl⟩⟩

/-! ## Flags are never cleared -/

theorem MatchFlags.le_refl (a : MatchFlags) : MatchFlags.le a a := by
  simp [MatchFlags.le]

theorem MatchFlags.le_trans (a b c : MatchFlags) (h1 : MatchFlags.le a b)
    (h2 : MatchFlags.le b c) : MatchFlags.le a c := by
  unfold MatchFlags.le at *
  obtain ⟨a1, a2, a3, a4, a5, a6, a7, a8, a9, a10⟩ := h1
  obtain ⟨b1, b2, b3, b4, b5, b6, b7, b8, b9, b10⟩ := h2
  exact ⟨fun h => b1 (a1 h), fun h => b2 (a2 h), fun h => b3 (a3 h), fun h => b4 (a4 h),
    fun h => b5 (a5 h), fun h => b6 (a6 h), fun h => b7 (a7 h), fun h => b8 (a8 h),
    fun h => b9 (a9 h), fun h => b10 (a10 h)⟩

theorem flag_for_le (k : FieldKind) (m : MatchFlags) : MatchFlags.le m (flag_for k m) := by
  cases k <;> simp [MatchFlags.le, flag_for]

theorem token_flags_le (m : MatchFlags) (tok : CStr) : MatchFlags.le m (token_flags m tok) := by
  unfold token_flags
  cases field_kind ( _parse_token tok).field with
  | none => exact MatchFlags.le_refl m
  | some k => exact flag_for_le k m

theorem foldl_token_flags_le (toks : List CStr) (m : MatchFlags) :
    MatchFlags.le m (toks.foldl token_flags m) := by
  induction toks generalizing m with
  | nil => exact MatchFlags.le_refl m
  | cons t ts ih =>
    rw [List.foldl_cons]
    exact MatchFlags.le_trans _ _ _ (token_flags_le m t) (ih _)

/-- C14: whatever the flags are on entry, `_parse_format` never clears one:
each token leaves every flag that was set still set, and so does the whole
pass; a token whose field letter is one of `A`, `c`, `d`, `D`, `F`, `m`,
`N`, `w`, or is not in the letter table, leaves all ten flags as they
were. -/
theorem parse_format_flags_monotone :
    (∀ (tok : CStr) (p : Params),
      MatchFlags.le p.match_flags (parse_format_token tok p).match_flags) ∧
    (∀ (fmt : CStr) (p : Params),
      ∃ r, _parse_format (some fmt) p = Outcome.returned r ∧
        MatchFlags.le p.match_flags r.params.match_flags) ∧
    (∀ (tok : CStr) (p : Params),
      (( _parse_token tok).field ∈ ['A', 'c', 'd', 'D', 'F', 'm', 'N', 'w'] ∨
        field_kind ( _parse_token tok).field = Option.none) →
      (parse_format_token tok p).match_flags = p.match_flags) := by
  refine ⟨?_, ?_, ?_⟩
  · intro tok p
    rw [parse_format_token_eq]
    exact token_flags_le _ _
  · intro fmt p
    exact ⟨_, parse_format_eq fmt p, foldl_token_flags_le _ _⟩
  · intro tok p h
    rw [parse_format_token_eq]
    show token_flags p.match_flags tok = p.match_flags
    unfold token_flags
    rcases h with h | h
    · have hall : ∀ x ∈ ['A', 'c', 'd', 'D', 'F', 'm', 'N', 'w'],
          ∃ k, field_kind x = some k ∧ ∀ m, flag_for k m = m := by
        intro x hx
        simp only [List.mem_cons, List.mem_singleton, List.not_mem_nil, or_false] at hx
        rcases hx with e | e | e | e | e | e | e | e <;> subst e
        · exact ⟨FieldKind.nodes_ai, by decide, fun m => rfl⟩
        · exact ⟨FieldKind.cpus, by decide, fun m => rfl⟩
        · exact ⟨FieldKind.disk, by decide, fun m => rfl⟩
        · exact ⟨FieldKind.nodes, by decide, fun m => rfl⟩
        · exact ⟨FieldKind.nodes_aiot, by decide, fun m => rfl⟩
        · exact ⟨FieldKind.memory, by decide, fun m => rfl⟩
        · exact ⟨FieldKind.node_list, by decide, fun m => rfl⟩
        · exact ⟨FieldKind.weight, by decide, fun m => rfl⟩
      obtain ⟨k, hk, hm⟩ := hall _ h
      rw [hk]
      exact hm _
    · rw [h]

/-! ## The width of a token -/

theorem wrap32_step (a d : Int) : wrap32 (wrap32 a * 10 + d) = wrap32 (a * 10 + d) := by
  unfold wrap32; omega

theorem wrap32_range (x : Int) : -2147483648 ≤ wrap32 x ∧ wrap32 x < 2147483648 := by
  unfold wrap32; omega

theorem wrap32_of_fit (x : Int) (h0 : 0 ≤ x) (h1 : x < 2147483648) : wrap32 x = x := by
  unfold wrap32; omega

/-- The digit loop computes the decimal value of the leading digits, reduced
to the range of an `int`. -/
theorem scan_digits_wrap (l : CStr) (a : Int) (i : Nat) :
    (scan_digits l (wrap32 a) i).1 =
      wrap32 ((l.takeWhile (fun c => decide ('0' ≤ c ∧ c ≤ '9'))).foldl
        (fun acc c => acc * 10 + ((c.toNat : Int) - 48)) a) := by
  induction l generalizing a i with
  | nil => simp [scan_digits]
  | cons c cs ih =>
    by_cases hc : '0' ≤ c ∧ c ≤ '9'
    · rw [List.takeWhile_cons_of_pos (by simpa using hc), List.foldl_cons]
      simp only [scan_digits, hc, and_self, if_true, wrap32_step]
      exact ih _ _
    · rw [List.takeWhile_cons_of_neg (by simpa using hc)]
      simp only [scan_digits, hc, if_false, List.foldl_nil]

theorem decimal_value_nonneg (ds : CStr) (hd : ∀ c ∈ ds, '0' ≤ c ∧ c ≤ '9') :
    0 ≤ decimal_value ds :=
  decimal_step_mono ds 0 (le_refl 0) hd

/-- C15, as the code has it under 32-bit wrapping: the width that
`_parse_token` computes is the decimal value of the maximal digit run after
the optional `.`, reduced modulo `2^32` to the range of an `int`; it is that
decimal value itself, and not negative, when the value is below `2^31`. -/
theorem parse_token_width (token : CStr) :
    ( _parse_token token).field_size = wrap32 (decimal_value (digit_run token)) ∧
    (decimal_value (digit_run token) < 2147483648 →
      ( _parse_token token).field_size = decimal_value (digit_run token) ∧
        0 ≤ ( _parse_token token).field_size) ∧
    -2147483648 ≤ ( _parse_token token).field_size ∧
    ( _parse_token token).field_size < 2147483648 := by
  have hw : ( _parse_token token).field_size = wrap32 (decimal_value (digit_run token)) := by
    have := scan_digits_wrap (token.drop (if charAt token 0 = '.' then 1 else 0)) 0
      (if charAt token 0 = '.' then 1 else 0)
    have h0 : wrap32 0 = 0 := by decide
    rw [h0] at this
    simpa [_parse_token, digit_run, decimal_value] using this
  have hnn : 0 ≤ decimal_value (digit_run token) := by
    apply decimal_value_nonneg
    intro c hc
    have := List.mem_takeWhile_imp hc
    simpa using this
  refine ⟨hw, ?_, ?_⟩
  · intro hfit
    rw [hw, wrap32_of_fit _ hnn hfit]
    exact ⟨rfl, hnn⟩
  · rw [hw]
    exact wrap32_range _

/-- C15 as stated fails for long digit runs: the run `2147483648` gives the
negative width `-2147483648`, and the run `4294967297` gives the width 1. -/
theorem parse_token_width_counterexample :
    ( _parse_token "2147483648a".toList).field_size = -2147483648 ∧
    decimal_value (digit_run "2147483648a".toList) = 2147483648 ∧
    ( _parse_token ".4294967297N ".toList).field_size = 1 ∧
    decimal_value (digit_run ".4294967297N ".toList) = 4294967297 := by
  decide

/-! ## Letter case in state lists -/

theorem tolower_eq_comma (c : Char) : (tolower c == ',') = (c == ',') := by
  have key : tolower c = ',' ↔ c = ',' := by
    unfold tolower Char.toLower
    by_cases h : c.toNat ≥ 65 ∧ c.toNat ≤ 90
    · simp only [h, and_self, if_true]
      constructor
      · intro e
        exfalso
        obtain ⟨h1, h2⟩ := h
        interval_cases hn : c.toNat <;> revert e <;> decide
      · intro e
        subst e
        exact absurd h (by decide)
    · simp only [h, if_false]
  rw [Bool.eq_iff_iff]
  simpa using key

theorem splitOnP_map (f : Char → Char) (q p : Char → Bool) (hq : ∀ c, q (f c) = p c)
    (s : CStr) : (s.map f).splitOnP q = (s.splitOnP p).map (List.map f) := by
  induction s with
  | nil => simp
  | cons x xs ih =>
    rw [List.map_cons, List.splitOnP_cons, List.splitOnP_cons, ih, hq]
    by_cases hx : p x = true
    · simp [hx]
    · simp only [hx, if_false]
      cases h : xs.splitOnP p with
      | nil => exact absurd h (List.splitOnP_ne_nil p xs)
      | cons a as => simp [List.modifyHead]

/-- Lowering the letters of a string lowers the letters of its segments
between commas and changes nothing else. -/
theorem segments_map_tolower (s : CStr) :
    segments ',' (s.map tolower) = (segments ',' s).map (List.map tolower) := by
  simp only [segments, List.splitOn]
  rw [splitOnP_map tolower (· == ',') (· == ',') tolower_eq_comma s, List.filter_map]
  congr 1
  apply List.filter_congr
  intro t _
  cases t <;> simp

theorem strcasecmp_congr_right (x t u : CStr) (h : eq_ignore_case t u) :
    strcasecmp x t = 0 ↔ strcasecmp x u = 0 := by
  rw [strcasecmp_eq_zero_iff, strcasecmp_eq_zero_iff]
  unfold eq_ignore_case at *
  rw [h]

theorem strcasecmp_congr_left (t u x : CStr) (h : eq_ignore_case t u) :
    strcasecmp t x = 0 ↔ strcasecmp u x = 0 := by
  rw [strcasecmp_eq_zero_iff, strcasecmp_eq_zero_iff]
  unfold eq_ignore_case at *
  rw [h]

theorem parse_state_scan_congr (ns : NodeStates) (t u : CStr) (h : eq_ignore_case t u)
    (n i : Nat) : parse_state_scan ns t n i = parse_state_scan ns u n i := by
  induction n generalizing i with
  | zero => rfl
  | succ n ih =>
    simp only [parse_state_scan, ih, strcasecmp_congr_right _ t u h]

/-- The return code and the code found by `_parse_state` do not depend on the
letter case of the token. -/
theorem parse_state_congr (ns : NodeStates) (t u : CStr) (h : eq_ignore_case t u)
    (st0 : Nat) :
    ( _parse_state ns t st0).rc = ( _parse_state ns u st0).rc ∧
    ( _parse_state ns t st0).states = ( _parse_state ns u st0).states := by
  simp only [_parse_state, parse_state_scan_congr ns t u h]
  cases parse_state_scan ns u ns.NODE_STATE_END 0 <;> simp

theorem resolve_tokens_congr (ns : NodeStates) (ts us : List CStr)
    (h : ts.map (List.map tolower) = us.map (List.map tolower)) (acc : List Nat) :
    (resolve_tokens ns ts acc).forget_stderr = (resolve_tokens ns us acc).forget_stderr := by
  induction ts generalizing us acc with
  | nil =>
    cases us with
    | nil => rfl
    | cons u us => simp at h
  | cons t ts ih =>
    cases us with
    | nil => simp at h
    | cons u us =>
      simp only [List.map_cons, List.cons.injEq] at h
      obtain ⟨h1, h2⟩ := parse_state_congr ns t u h.1 0
      simp only [resolve_tokens, h1, h2]
      split_ifs
      · rfl
      · exact ih us h.2 _

theorem forget_stderr_returned_iff {α : Type} (o : Outcome α) (a : α) :
    o.forget_stderr = Outcome.returned a ↔ o = Outcome.returned a := by
  cases o <;> simp [Outcome.forget_stderr]

theorem forget_stderr_exited_iff {α : Type} (o : Outcome α) (n : Nat) :
    o.forget_stderr = Outcome.exited n [] ↔ ∃ e, o = Outcome.exited n e := by
  cases o <;> simp [Outcome.forget_stderr]

theorem build_state_list_forget_congr (ns : NodeStates) (s u : CStr)
    (h : eq_ignore_case s u) :
    ( _build_state_list ns (some s)).forget_stderr =
      ( _build_state_list ns (some u)).forget_stderr := by
  by_cases hall : eq_ignore_case s "all".toList
  · have hall2 : eq_ignore_case u "all".toList := by
      unfold eq_ignore_case at *; rw [← h]; exact hall
    have h1 := (strcasecmp_eq_zero_iff _ _).mpr hall
    have h2 := (strcasecmp_eq_zero_iff _ _).mpr hall2
    simp only [_build_state_list, h1, h2, if_true]
  · have hall2 : ¬ eq_ignore_case u "all".toList := by
      unfold eq_ignore_case at *; rw [← h]; exact hall
    rw [build_state_list_eq ns s hall, build_state_list_eq ns u hall2]
    have hseg : (segments ',' s).map (List.map tolower) =
        (segments ',' u).map (List.map tolower) := by
      rw [← segments_map_tolower, ← segments_map_tolower]
      unfold eq_ignore_case at h
      rw [h]
    have := resolve_tokens_congr ns _ _ hseg []
    revert this
    cases resolve_tokens ns (segments ',' s) [] <;>
      cases resolve_tokens ns (segments ',' u) [] <;>
      simp [Outcome.forget_stderr]

/-- C16: for two strings that are equal ignoring ASCII letter case,
`_build_state_list` has the same outcome: it returns for the one exactly when
it returns for the other, and then the same list of codes, and it terminates
the process for the one exactly when it does for the other, with the same
exit status. Only the text printed before the exit, which quotes the token
as typed, can differ. -/
theorem build_state_list_case_insensitive (ns : NodeStates) (s u : CStr)
    (h : eq_ignore_case s u) :
    (∀ l, _build_state_list ns (some s) = Outcome.returned l ↔
      _build_state_list ns (some u) = Outcome.returned l) ∧
    (∀ n, (∃ e, _build_state_list ns (some s) = Outcome.exited n e) ↔
      (∃ e, _build_state_list ns (some u) = Outcome.exited n e)) ∧
    ((∃ l, _build_state_list ns (some s) = Outcome.returned l) ∨
      (∃ e, _build_state_list ns (some s) = Outcome.exited 1 e)) := by
  have hf := build_state_list_forget_congr ns s u h
  refine ⟨?_, ?_, ?_⟩
  · intro l
    rw [← forget_stderr_returned_iff, ← forget_stderr_returned_iff ( _build_state_list ns _), hf]
  · intro n
    rw [← forget_stderr_exited_iff, ← forget_stderr_exited_iff ( _build_state_list ns _), hf]
  · by_cases hall : eq_ignore_case s "all".toList
    · left
      have h1 := (strcasecmp_eq_zero_iff _ _).mpr hall
      exact ⟨some ( _build_all_states_list ns), by simp only [_build_state_list, h1, if_true]⟩
    · by_cases hc : ∃ t ∈ segments ',' s, ( _parse_state ns t 0).rc ≠ SLURM_SUCCESS
      · right
        obtain ⟨e, he⟩ := resolve_tokens_fail ns _ [] hc
        exact ⟨e, by rw [build_state_list_eq ns s hall, he]⟩
      · left
        have hok : ∀ t ∈ segments ',' s, ( _parse_state ns t 0).rc = SLURM_SUCCESS := by
          intro t ht
          by_contra hn
          exact hc ⟨t, ht, hn⟩
        exact ⟨_, by rw [build_state_list_eq ns s hall, resolve_tokens_ok ns _ [] hok]⟩

theorem build_state_list_case_insensitive_witness :
    eq_ignore_case "IDLE,down".toList "idle,DOWN".toList ∧
    ((∀ l, _build_state_list sample_states (some "IDLE,down".toList) = Outcome.returned l ↔
      _build_state_list sample_states (some "idle,DOWN".toList) = Outcome.returned l) ∧
    (∀ n, (∃ e, _build_state_list sample_states (some "IDLE,down".toList) =
        Outcome.exited n e) ↔
      (∃ e, _build_state_list sample_states (some "idle,DOWN".toList) =
        Outcome.exited n e)) ∧
    ((∃ l, _build_state_list sample_states (some "IDLE,down".toList) =
        Outcome.returned l) ∨
      (∃ e, _build_state_list sample_states (some "IDLE,down".toList) =
        Outcome.exited 1 e))) ∧
    _build_state_list sample_states (some "IDLE,down".toList) =
      Outcome.returned (some [2, 0]) ∧
    _build_state_list sample_states (some "idle,DOWN".toList) =
      Outcome.returned (some [2, 0]) :=
  ⟨by decide,
    build_state_list_case_insensitive sample_states "IDLE,down".toList "idle,DOWN".toList
      (by decide),
    by decide, by decide⟩

/-! ## Where `_parse_token` reads -/

theorem scan_digits_index (l : CStr) (a : Int) (i : Nat) :
    (scan_digits l a i).2 =
      i + (l.takeWhile (fun c => decide ('0' ≤ c ∧ c ≤ '9'))).length := by
  induction l generalizing a i with
  | nil => simp [scan_digits]
  | cons c cs ih =>
    by_cases hc : '0' ≤ c ∧ c ≤ '9'
    · rw [List.takeWhile_cons_of_pos (by simpa using hc)]
      simp only [scan_digits, hc, and_self, if_true, ih, List.length_cons]
      omega
    · rw [List.takeWhile_cons_of_neg (by simpa using hc)]
      simp only [scan_digits, hc, if_false, List.length_nil, Nat.add_zero]

/-- The index from which `_parse_token` copies the suffix: one past the
optional `.` and the digit run. It is at most one more than the length of
the token, and it is more than the length exactly when the token consists of
the optional `.` and digits only, so that the field character read is the
terminator. -/
theorem parse_token_next (token : CStr) :
    ( _parse_token token).next =
      (if charAt token 0 = '.' then 1 else 0) + (digit_run token).length + 1 ∧
    ( _parse_token token).next ≤ token.length + 1 ∧
    (token.length < ( _parse_token token).next →
      ( _parse_token token).field = NUL ∧
        ( _parse_token token).suffix = Option.none) := by
  have hn : ( _parse_token token).next =
      (if charAt token 0 = '.' then 1 else 0) + (digit_run token).length + 1 := by
    simp only [_parse_token, digit_run, scan_digits_index]
  have hlen : (if charAt token 0 = '.' then 1 else 0) + (digit_run token).length
      ≤ token.length := by
    have h1 := (List.takeWhile_sublist (fun c => decide ('0' ≤ c ∧ c ≤ '9'))
      (l := token.drop (if charAt token 0 = '.' then 1 else 0))).length_le
    rw [List.length_drop] at h1
    by_cases hd : charAt token 0 = '.'
    · cases token with
      | nil => exact absurd hd (by simp [charAt, NUL])
      | cons x xs =>
        simp only [digit_run, hd, if_true, List.length_cons] at h1 ⊢
        omega
    · simp only [digit_run, hd, if_false] at h1 ⊢
      omega
  refine ⟨hn, by omega, ?_⟩
  intro hlt
  have hidx : token.length ≤ ( _parse_token token).next - 1 := by omega
  constructor
  · have : ( _parse_token token).field = charAt token (( _parse_token token).next - 1) := by
      simp [_parse_token]
    rw [this]
    simp only [charAt, List.getD_eq_getElem?_getD]
    rw [List.getElem?_eq_none hidx]
    rfl
  · have : ( _parse_token token).suffix =
        if ( _parse_token token).next ≤ token.length
        then some (token.drop ( _parse_token token).next) else Option.none := by
      simp [_parse_token]
    rw [this, if_neg (by omega)]

/-- C17 fails on the code: for the tokens `5`, `.` and `.12`, which have no
`%` and are not empty, the field character read is the terminator and the
suffix is copied from one position past it, beyond the end of the token. -/
theorem parse_token_reads_past_end :
    ( _parse_token "5".toList).next = 2 ∧ "5".toList.length = 1 ∧
    ( _parse_token "5".toList).field = NUL ∧
    ( _parse_token ".".toList).next = 2 ∧ ".".toList.length = 1 ∧
    ( _parse_token ".12".toList).next = 4 ∧ ".12".toList.length = 3 ∧
    '%' ∉ "5".toList ∧ "5".toList ≠ [] := by
  decide

/-! ## The tokens of a template -/

theorem field_tokens_eq_template_tokens (fmt : CStr) :
    field_tokens fmt = template_tokens fmt := by
  unfold field_tokens template_tokens
  cases fmt with
  | nil => simp [segments_nil]
  | cons c cs =>
    by_cases hc : c = '%'
    · subst hc; simp
    · have hh : (c :: cs).head? ≠ some '%' := by simpa using hc
      simp only [hh, if_false]
      obtain ⟨hfree, hrest⟩ := run_split '%' (c :: cs)
      have hne : (c :: cs).takeWhile (fun x => !(x == '%')) ≠ [] := by
        rw [List.takeWhile_cons_of_pos (by simpa using hc)]; simp
      have hsplit := List.takeWhile_append_dropWhile (fun x => !(x == '%')) (c :: cs)
      rcases hrest with h0 | ⟨r, hr⟩
      · have hs : segments '%' (c :: cs) = [(c :: cs).takeWhile (fun x => !(x == '%'))] := by
          conv_lhs => rw [← hsplit, h0, List.append_nil]
          exact segments_single '%' _ hne hfree
        rw [hs, h0, segments_nil]
        rfl
      · have hs : segments '%' (c :: cs) =
            (c :: cs).takeWhile (fun x => !(x == '%')) :: segments '%' r := by
          conv_lhs => rw [← hsplit, hr]
          exact segments_append_delim '%' _ r hne hfree
        rw [hs, hr, segments_cons_delim]
        rfl

theorem token_spec_or_diag (toks : List CStr) :
    (toks.filterMap token_spec).length + (toks.filterMap token_diag).length = toks.length := by
  induction toks with
  | nil => rfl
  | cons t ts ih =>
    cases hk : field_kind ( _parse_token t).field with
    | none =>
      have h1 : token_spec t = Option.none := by simp [token_spec, hk]
      have h2 : token_diag t = some (invalid_format_msg ( _parse_token t).field) := by
        simp [token_diag, hk]
      simp only [List.filterMap_cons, h1, h2, List.length_cons]
      omega
    | some k =>
      have h1 : token_spec t = some ⟨k, ( _parse_token t).field_size,
          ( _parse_token t).right_justify, ( _parse_token t).suffix.getD []⟩ := by
        simp [token_spec, hk]
      have h2 : token_diag t = Option.none := by simp [token_diag, hk]
      simp only [List.filterMap_cons, h1, h2, List.length_cons]
      omega

/-- C18: the tokens `_parse_format` works on are the non-empty maximal
`%`-free segments of the template from left to right, without the leading
segment when the template does not begin with `%`. Each of them yields
either its column or one diagnostic, in that order, so the number of
real-field columns plus the number of diagnostics printed is the number of
these segments. -/
theorem parse_format_tokens_are_segments (fmt : CStr) (p : Params) :
    ∃ r, _parse_format (some fmt) p = Outcome.returned r ∧
      r.params.format_list =
        literal_entry fmt ++ (template_tokens fmt).filterMap token_spec ∧
      real_columns r.params.format_list = (template_tokens fmt).filterMap token_spec ∧
      r.params.stderr = p.stderr ++ (template_tokens fmt).filterMap token_diag ∧
      (real_columns r.params.format_list).length +
        (r.params.stderr.length - p.stderr.length) = (template_tokens fmt).length := by
  refine ⟨_, parse_format_eq fmt p, ?_⟩
  rw [field_tokens_eq_template_tokens]
  have hreal : real_columns (literal_entry fmt ++ (template_tokens fmt).filterMap token_spec)
      = (template_tokens fmt).filterMap token_spec := by
    have h1 := real_columns_literal_entry fmt
    have h2 := real_columns_filterMap (template_tokens fmt)
    simp only [real_columns, List.filter_append] at h1 h2 ⊢
    rw [h1, h2, List.nil_append]
  refine ⟨rfl, hreal, rfl, ?_⟩
  simp only [hreal, List.length_append, Nat.add_sub_cancel_left]
  exact token_spec_or_diag _

theorem parse_format_tokens_examples :
    template_tokens "%%".toList = [] ∧ template_tokens "abc%".toList = [] ∧
    template_tokens "%a%%N".toList = [['a'], ['N']] ∧
    template_tokens "x %5 y%%.3Q%".toList = ["5 y".toList, ".3Q".toList] ∧
    _parse_format (some "%%".toList) Params.init =
      Outcome.returned ⟨SLURM_SUCCESS, ⟨[], MatchFlags.none, []⟩, "%%".toList⟩ ∧
    _parse_format (some "abc%".toList) Params.init =
      Outcome.returned
        ⟨SLURM_SUCCESS, ⟨[⟨FieldKind.literal, 0, false, "abc".toList⟩], MatchFlags.none, []⟩,
         "%".toList⟩ ∧
    _parse_format (some "%a%%N".toList) Params.init =
      Outcome.returned
        ⟨SLURM_SUCCESS,
         ⟨[⟨FieldKind.avail, 0, false, []⟩, ⟨FieldKind.node_list, 0, false, []⟩],
          { MatchFlags.none with avail_flag := true }, []⟩,
         "%a%%N".toList⟩ := by
  decide

/-! ## The built-in formats -/

theorem builtin_format_facts (s n l : Bool) :
    literal_entry (builtin_format s n l) = [] ∧
    (field_tokens (builtin_format s n l)).filterMap token_diag = [] ∧
    ((field_tokens (builtin_format s n l)).filterMap token_spec).length =
      (builtin_format s n l).count '%' ∧
    ((field_tokens (builtin_format s n l)).filterMap token_spec).length =
      (if s then 5 else if n then (if l then 10 else 4) else if l then 10 else 6) ∧
    (builtin_format s n l).head? = some '%' := by
  cases s <;> cases n <;> cases l <;> decide

/-- C19: when no format was supplied, `parse_command_line` passes a built-in
template to `_parse_format`, never `NULL`, whatever the summarize, node and
long options are, so `_parse_format` returns. Each built-in template begins
with `%`, is left as it is in its buffer, causes no diagnostic and compiles
to one real-field column per `%`: 5, 10, 4, 10 and 6 columns for the five
templates in the order of the code. -/
theorem builtin_format_compiles (s n l : Bool) (p : Params) :
    ∃ r, default_format Option.none s n l = some (builtin_format s n l) ∧
      (builtin_format s n l).head? = some '%' ∧
      _parse_format (default_format Option.none s n l) p = Outcome.returned r ∧
      r.format = builtin_format s n l ∧
      r.params.stderr = p.stderr ∧
      real_columns r.params.format_list = r.params.format_list ∧
      r.params.format_list.length = (builtin_format s n l).count '%' ∧
      r.params.format_list.length =
        (if s then 5 else if n then (if l then 10 else 4) else if l then 10 else 6) := by
  obtain ⟨h1, h2, h3, h4, h5⟩ := builtin_format_facts s n l
  have hmem : '%' ∈ builtin_format s n l := List.mem_of_mem_head? h5
  obtain ⟨rest, hrest⟩ := dropWhile_of_mem _ _ hmem
  have hdrop : (builtin_format s n l).dropWhile (fun c => !(c == '%')) = builtin_format s n l := by
    cases hb : builtin_format s n l with
    | nil => rw [hb] at hmem; exact absurd hmem (List.not_mem_nil _)
    | cons c cs =>
      rw [hb] at h5
      simp only [List.head?_cons, Option.some.injEq] at h5
      subst h5
      simp
  refine ⟨_, rfl, h5, parse_format_eq _ p, ?_, ?_, ?_, ?_, ?_⟩
  · simp only [hmem, if_true, hdrop]
  · simp only [h2, List.append_nil]
  · simp only [h1, List.nil_append]
    exact real_columns_filterMap _
  · simp only [h1, List.nil_append]
    exact h3
  · simp only [h1, List.nil_append]
    exact h4

/-! ## What `_get_prefix` removes -/

/-- C20, as the code has it: for a string with a `%`, `_get_prefix` returns
the text before the first `%` (`NULL` when there is none) and removes exactly
that text in place, so the returned text followed by the new content is the
original content, the returned text has no `%`, and the new content begins
with `%`. For a string without `%` it returns a copy of the whole string and
leaves the string as it is. -/
theorem get_prefix_split (tok : CStr) :
    ('%' ∈ tok →
      ∃ rest, ( _get_prefix (some tok)).token = some ('%' :: rest) ∧
        (( _get_prefix (some tok)).ret.getD []) ++ '%' :: rest = tok ∧
        '%' ∉ ( _get_prefix (some tok)).ret.getD [] ∧
        (( _get_prefix (some tok)).ret = Option.none ↔ tok.head? = some '%')) ∧
    ('%' ∉ tok →
      ( _get_prefix (some tok)).ret = some tok ∧
        ( _get_prefix (some tok)).token = some tok) := by
  rw [get_prefix_eq]
  constructor
  · intro h
    obtain ⟨rest, hr⟩ := dropWhile_of_mem tok '%' h
    have hsplit := List.takeWhile_append_dropWhile (fun c => !(c == '%')) tok
    rw [hr] at hsplit
    have hfree := (run_split '%' tok).1
    refine ⟨rest, by simp [h, hr], ?_, ?_, ?_⟩
    · by_cases h0 : charAt tok 0 = '%'
      · have hh := (charAt_zero_iff_head tok).mp h0
        cases tok with
        | nil => exact absurd h (List.not_mem_nil _)
        | cons c cs =>
          simp only [List.head?_cons, Option.some.injEq] at hh
          subst hh
          simp only [h0, if_true, Option.getD_none, List.nil_append]
          simpa using hr.symm
      · simp only [h0, if_false, Option.getD_some]
        exact hsplit
    · by_cases h0 : charAt tok 0 = '%'
      · simp [h0]
      · simp only [h0, if_false, Option.getD_some]
        exact hfree
    · rw [← charAt_zero_iff_head]
      by_cases h0 : charAt tok 0 = '%' <;> simp [h0]
  · intro h
    have h0 : charAt tok 0 ≠ '%' := fun e =>
      h (List.mem_of_mem_head? ((charAt_zero_iff_head tok).mp e))
    simp [h, h0, (takeWhile_ne_of_not_mem tok '%' h).1]

/-- C20 as stated fails for a string without `%`: for `abc` the whole string
is returned and nothing is removed, so the returned text followed by the new
content is `abcabc`, not `abc`. -/
theorem get_prefix_no_percent_counterexample :
    _get_prefix (some "abc".toList) = ⟨some "abc".toList, some "abc".toList⟩ ∧
    (( _get_prefix (some "abc".toList)).ret.getD []) ++
      (( _get_prefix (some "abc".toList)).token.getD []) = "abcabc".toList ∧
    "abcabc".toList ≠ "abc".toList := by
  decide

/-- In the branches of the field letters the suffix lies inside the token:
when the field character is in the letter table, the suffix index is at most
the length of the token and the suffix is the rest of the token from there. -/
theorem parse_token_suffix_inside (token : CStr)
    (h : (field_kind ( _parse_token token).field).isSome = true) :
    ( _parse_token token).next ≤ token.length ∧
    ( _parse_token token).suffix = some (token.drop ( _parse_token token).next) := by
  have hle : ( _parse_token token).next ≤ token.length := by
    by_contra hc
    have hnul := ((parse_token_next token).2.2 (by omega)).1
    rw [hnul] at h
    exact absurd h (by decide)
  refine ⟨hle, ?_⟩
  have : ( _parse_token token).suffix =
      if ( _parse_token token).next ≤ token.length
      then some (token.drop ( _parse_token token).next) else Option.none := by
    simp [_parse_token]
  rw [this, if_pos hle]

/-! ## Tokens without a valid field letter -/

theorem takeWhile_digits_append (ds : CStr) (c : Char) (rest : CStr)
    (hd : ∀ x ∈ ds, '0' ≤ x ∧ x ≤ '9') (hc : ¬('0' ≤ c ∧ c ≤ '9')) :
    (ds ++ c :: rest).takeWhile (fun x => decide ('0' ≤ x ∧ x ≤ '9')) = ds := by
  induction ds with
  | nil => simp [hc]
  | cons d ds ih =>
    have hdd := hd d (List.mem_cons_self d ds)
    rw [List.cons_append, List.takeWhile_cons_of_pos (by simpa using hdd),
      ih (fun x hx => hd x (List.mem_cons_of_mem d hx))]

/-- The field character that `_parse_token` finds in the text of a field
specification with an unrecognised character is that character, and no
letter of the table. -/
theorem parse_token_unrecognised (f : FieldText) (h : f.unrecognised) :
    ( _parse_token f.text).field = f.letter ∧ field_kind f.letter = Option.none ∧
    f.text ≠ [] ∧ '%' ∉ f.text := by
  obtain ⟨hd, hnd, hnl, hpct, hs, hdotc⟩ := h
  have hkind : field_kind f.letter = Option.none := by
    cases hk : field_kind f.letter with
    | none => rfl
    | some k => exact absurd (field_kind_some_mem f.letter (by rw [hk]; rfl)) hnl
  have hdig : '%' ∉ f.digits := fun hm => absurd (hd '%' hm) (by decide)
  have htw := takeWhile_digits_append f.digits f.letter f.suffix hd hnd
  refine ⟨?_, hkind, ?_, ?_⟩
  · cases hdot : f.dot with
    | false =>
      have h0 : charAt (f.digits ++ f.letter :: f.suffix) 0 ≠ '.' := by
        cases hds : f.digits with
        | nil => simpa [charAt] using hdotc hdot hds
        | cons d ds =>
          have := hd d (by rw [hds]; exact List.mem_cons_self d ds)
          have hne : d ≠ '.' := by
            intro e; rw [e] at this; exact absurd this (by decide)
          simpa [charAt] using hne
      simp only [_parse_token, FieldText.text, hdot, if_false, List.nil_append, h0,
        List.drop_zero, scan_digits_index, htw, Bool.false_eq_true]
      simpa using charAt_append_cons f.digits f.letter f.suffix
    | true =>
      have h0 : charAt ('.' :: (f.digits ++ f.letter :: f.suffix)) 0 = '.' := by simp [charAt]
      have hget : charAt ('.' :: (f.digits ++ f.letter :: f.suffix)) (1 + f.digits.length)
          = f.letter := by
        have := charAt_append_cons ('.' :: f.digits) f.letter f.suffix
        simpa [Nat.add_comm] using this
      simp only [_parse_token, FieldText.text, hdot, if_true, List.singleton_append, h0,
        List.drop_succ_cons, List.drop_zero, scan_digits_index, htw, hget]
  · cases hdot : f.dot <;> simp [FieldText.text, hdot]
  · cases hdot : f.dot <;> simp [FieldText.text, hdot, hdig, hs, Ne.symm hpct]

theorem takeWhile_append_stop (q : Char → Bool) (a : CStr) (x : Char) (b : CStr)
    (ha : ∀ c ∈ a, q c = true) (hx : q x = false) : (a ++ x :: b).takeWhile q = a := by
  rw [List.takeWhile_append_of_pos ha, List.takeWhile_cons_of_neg (by simp [hx])]
  simp

theorem takeWhile_all (q : Char → Bool) (a : CStr) (ha : ∀ c ∈ a, q c = true) :
    a.takeWhile q = a := by
  induction a with
  | nil => rfl
  | cons c cs ih =>
    rw [List.takeWhile_cons_of_pos (ha c (List.mem_cons_self c cs)),
      ih (fun x hx => ha x (List.mem_cons_of_mem c hx))]

theorem dropWhile_append_stop (q : Char → Bool) (a : CStr) (x : Char) (b : CStr)
    (ha : ∀ c ∈ a, q c = true) (hx : q x = false) : (a ++ x :: b).dropWhile q = x :: b := by
  rw [List.dropWhile_append_of_pos ha, List.dropWhile_cons_of_neg (by simp [hx])]

theorem dropWhile_all (q : Char → Bool) (a : CStr) (ha : ∀ c ∈ a, q c = true) :
    a.dropWhile q = [] := by
  induction a with
  | nil => rfl
  | cons c cs ih =>
    rw [List.dropWhile_cons_of_pos (ha c (List.mem_cons_self c cs)),
      ih (fun x hx => ha x (List.mem_cons_of_mem c hx))]

theorem cstr_at_append (pre str tail : List Char) (hnul : NUL ∉ str) :
    cstr_at (pre ++ str ++ NUL :: tail) pre.length = str := by
  unfold cstr_at
  rw [List.append_assoc, List.drop_left]
  exact (takeWhile_dropWhile_append str NUL tail hnul).1

theorem set_append_cons (a : List Char) (x y : Char) (b : List Char) :
    (a ++ x :: b).set a.length y = a ++ y :: b := by
  induction a with
  | nil => rfl
  | cons c cs ih => simp [ih]

/-- A string is a run of delimiters, followed by nothing, by a token that
ends the string, or by a token, a delimiter and a rest. -/
theorem token_shape (d : Char) (s : CStr) :
    ∃ ds, (∀ c ∈ ds, c = d) ∧
      (s = ds ∨
       ∃ t, t ≠ [] ∧ d ∉ t ∧ (s = ds ++ t ∨ ∃ r, s = ds ++ t ++ d :: r)) := by
  induction s with
  | nil => exact ⟨[], by simp, Or.inl rfl⟩
  | cons c cs ih =>
    by_cases hc : c = d
    · obtain ⟨ds, hds, hrest⟩ := ih
      refine ⟨c :: ds, ?_, ?_⟩
      · intro x hx
        rcases List.mem_cons.mp hx with e | e
        · rw [e, hc]
        · exact hds x e
      · rcases hrest with h | ⟨t, h1, h2, h | ⟨r, h⟩⟩
        · exact Or.inl (by rw [h])
        · exact Or.inr ⟨t, h1, h2, Or.inl (by rw [h]; rfl)⟩
        · exact Or.inr ⟨t, h1, h2, Or.inr ⟨r, by rw [h]; rfl⟩⟩
    · refine ⟨[], by simp, Or.inr ⟨(c :: cs).takeWhile (fun x => !(x == d)), ?_, ?_, ?_⟩⟩
      · rw [List.takeWhile_cons_of_pos (by simpa using hc)]; simp
      · exact (run_split d (c :: cs)).1
      · have hsplit := List.takeWhile_append_dropWhile (fun x => !(x == d)) (c :: cs)
        rcases (run_split d (c :: cs)).2 with h0 | ⟨r, hr⟩
        · left
          rw [h0, List.append_nil] at hsplit
          simpa using hsplit.symm
        · right
          refine ⟨r, ?_⟩
          rw [hr] at hsplit
          simpa using hsplit.symm

theorem strtok_r_delims (d : Char) (ds : CStr) (hds : ∀ c ∈ ds, c = d) :
    strtok_r ds [d] = (Option.none, []) := by
  have h1 : ds.dropWhile (isDelim [d]) = [] :=
    dropWhile_all _ ds (fun c hc => by rw [isDelim_single, hds c hc]; simp)
  simp [strtok_r, h1]

theorem strtok_r_last (d : Char) (ds t : CStr) (hds : ∀ c ∈ ds, c = d) (hne : t ≠ [])
    (hfree : d ∉ t) : strtok_r (ds ++ t) [d] = (some t, []) := by
  have hdel : ∀ c ∈ ds, isDelim [d] c = true :=
    fun c hc => by rw [isDelim_single, hds c hc]; simp
  have hnd : ∀ c ∈ t, (fun x => !isDelim [d] x) c = true := by
    intro c hc
    have : c ≠ d := fun e => hfree (e ▸ hc)
    simp [isDelim_single, this]
  cases t with
  | nil => exact absurd rfl hne
  | cons x xs =>
    have hx : isDelim [d] x = false := by
      have := hnd x (List.mem_cons_self x xs)
      simpa using this
    have h1 : (ds ++ x :: xs).dropWhile (isDelim [d]) = x :: xs :=
      dropWhile_append_stop _ ds x xs hdel hx
    simp only [strtok_r, h1, takeWhile_all _ _ hnd, dropWhile_all _ _ hnd]
    simp

theorem strtok_r_token (d : Char) (ds t r : CStr) (hds : ∀ c ∈ ds, c = d) (hne : t ≠ [])
    (hfree : d ∉ t) : strtok_r (ds ++ t ++ d :: r) [d] = (some t, r) := by
  have hdel : ∀ c ∈ ds, isDelim [d] c = true :=
    fun c hc => by rw [isDelim_single, hds c hc]; simp
  have hnd : ∀ c ∈ t, (fun x => !isDelim [d] x) c = true := by
    intro c hc
    have : c ≠ d := fun e => hfree (e ▸ hc)
    simp [isDelim_single, this]
  have hdd : (fun x => !isDelim [d] x) d = false := by simp [isDelim_single]
  cases t with
  | nil => exact absurd rfl hne
  | cons x xs =>
    have hx : isDelim [d] x = false := by
      have := hnd x (List.mem_cons_self x xs)
      simpa using this
    have h1 : (ds ++ (x :: xs) ++ d :: r).dropWhile (isDelim [d]) = (x :: xs) ++ d :: r := by
      rw [List.append_assoc]
      exact dropWhile_append_stop _ ds x (xs ++ d :: r) hdel hx
    simp only [strtok_r, h1, takeWhile_append_stop _ _ d r hnd hdd,
      dropWhile_append_stop _ _ d r hnd hdd]
    simp

theorem strtok_r_bytes_delims (pre ds tail : List Char) (d : Char)
    (hds : ∀ c ∈ ds, c = d) (hd : d ≠ NUL) :
    strtok_r_bytes (pre ++ ds ++ NUL :: tail) pre.length [d] =
      (pre ++ ds ++ NUL :: tail, Option.none, pre.length + ds.length) := by
  have hnul : NUL ∉ ds := fun h => hd (hds NUL h).symm
  have hdel : ∀ c ∈ ds, isDelim [d] c = true :=
    fun c hc => by rw [isDelim_single, hds c hc]; simp
  have hc : charAt (pre ++ ds ++ NUL :: tail) (pre.length + ds.length) = NUL := by
    have := charAt_append_cons (pre ++ ds) NUL tail
    simpa using this
  simp only [strtok_r_bytes, cstr_at_append pre ds tail hnul, takeWhile_all _ ds hdel, hc,
    if_true]

theorem strtok_r_bytes_last (pre ds t tail : List Char) (d : Char)
    (hds : ∀ c ∈ ds, c = d) (hd : d ≠ NUL) (hne : t ≠ []) (hfree : d ∉ t)
    (hnt : NUL ∉ t) :
    strtok_r_bytes (pre ++ (ds ++ t) ++ NUL :: tail) pre.length [d] =
      (pre ++ (ds ++ t) ++ NUL :: tail, some (pre.length + ds.length),
        pre.length + ds.length + t.length) := by
  have hnds : NUL ∉ ds := fun h => hd (hds NUL h).symm
  have hnul : NUL ∉ ds ++ t := by simp [hnds, hnt]
  have hdel : ∀ c ∈ ds, isDelim [d] c = true :=
    fun c hc => by rw [isDelim_single, hds c hc]; simp
  have hnd : ∀ c ∈ t, (fun x => !isDelim [d] x) c = true := by
    intro c hc
    have : c ≠ d := fun e => hfree (e ▸ hc)
    simp [isDelim_single, this]
  cases t with
  | nil => exact absurd rfl hne
  | cons x xs =>
    have hx : isDelim [d] x = false := by
      have := hnd x (List.mem_cons_self x xs)
      simpa using this
    have hxn : x ≠ NUL := fun e => hnt (e ▸ List.mem_cons_self x xs)
    have h1 : (ds ++ x :: xs).takeWhile (isDelim [d]) = ds :=
      takeWhile_append_stop _ ds x xs hdel hx
    have hc1 : charAt (pre ++ (ds ++ x :: xs) ++ NUL :: tail) (pre.length + ds.length) = x := by
      have := charAt_append_cons (pre ++ ds) x (xs ++ NUL :: tail)
      simpa using this
    have hcs : cstr_at (pre ++ (ds ++ x :: xs) ++ NUL :: tail) (pre.length + ds.length)
        = x :: xs := by
      have := cstr_at_append (pre ++ ds) (x :: xs) tail hnt
      simpa using this
    have hc2 : charAt (pre ++ (ds ++ x :: xs) ++ NUL :: tail)
        (pre.length + ds.length + (x :: xs).length) = NUL := by
      have := charAt_append_cons (pre ++ ds ++ x :: xs) NUL tail
      simpa [Nat.add_assoc] using this
    simp only [strtok_r_bytes, cstr_at_append pre _ tail hnul, h1, hc1, hxn, if_false, hcs,
      takeWhile_all _ _ hnd, hc2, if_true]

theorem strtok_r_bytes_token (pre ds t r tail : List Char) (d : Char)
    (hds : ∀ c ∈ ds, c = d) (hd : d ≠ NUL) (hne : t ≠ []) (hfree : d ∉ t)
    (hnt : NUL ∉ t) (hnr : NUL ∉ r) :
    strtok_r_bytes (pre ++ (ds ++ t ++ d :: r) ++ NUL :: tail) pre.length [d] =
      ((pre ++ ds ++ t ++ [NUL]) ++ r ++ NUL :: tail, some (pre.length + ds.length),
        pre.length + ds.length + t.length + 1) := by
  have hnds : NUL ∉ ds := fun h => hd (hds NUL h).symm
  have hnul : NUL ∉ ds ++ t ++ d :: r := by simp [hnds, hnt, hnr, Ne.symm hd]
  have hdel : ∀ c ∈ ds, isDelim [d] c = true :=
    fun c hc => by rw [isDelim_single, hds c hc]; simp
  have hnd : ∀ c ∈ t, (fun x => !isDelim [d] x) c = true := by
    intro c hc
    have : c ≠ d := fun e => hfree (e ▸ hc)
    simp [isDelim_single, this]
  have hdd : (fun x => !isDelim [d] x) d = false := by simp [isDelim_single]
  cases t with
  | nil => exact absurd rfl hne
  | cons x xs =>
    have hx : isDelim [d] x = false := by
      have := hnd x (List.mem_cons_self x xs)
      simpa using this
    have hxn : x ≠ NUL := fun e => hnt (e ▸ List.mem_cons_self x xs)
    have h1 : (ds ++ (x :: xs) ++ d :: r).takeWhile (isDelim [d]) = ds := by
      rw [List.append_assoc]
      exact takeWhile_append_stop _ ds x (xs ++ d :: r) hdel hx
    have hc1 : charAt (pre ++ (ds ++ (x :: xs) ++ d :: r) ++ NUL :: tail)
        (pre.length + ds.length) = x := by
      have := charAt_append_cons (pre ++ ds) x (xs ++ d :: r ++ NUL :: tail)
      simpa using this
    have hcs : cstr_at (pre ++ (ds ++ (x :: xs) ++ d :: r) ++ NUL :: tail)
        (pre.length + ds.length) = (x :: xs) ++ d :: r := by
      have hn2 : NUL ∉ (x :: xs) ++ d :: r := by
        intro hm
        rcases List.mem_append.mp hm with h | h
        · exact hnt h
        · rcases List.mem_cons.mp h with e | e
          · exact hd e.symm
          · exact hnr e
      have := cstr_at_append (pre ++ ds) ((x :: xs) ++ d :: r) tail hn2
      simpa using this
    have hc2 : charAt (pre ++ (ds ++ (x :: xs) ++ d :: r) ++ NUL :: tail)
        (pre.length + ds.length + (x :: xs).length) = d := by
      have := charAt_append_cons (pre ++ ds ++ x :: xs) d (r ++ NUL :: tail)
      simpa [Nat.add_assoc] using this
    have hset : (pre ++ (ds ++ (x :: xs) ++ d :: r) ++ NUL :: tail).set
        (pre.length + ds.length + (x :: xs).length) NUL =
        (pre ++ ds ++ (x :: xs) ++ [NUL]) ++ r ++ NUL :: tail := by
      have := set_append_cons (pre ++ ds ++ x :: xs) d NUL (r ++ NUL :: tail)
      simp only [List.length_append, List.length_cons, List.append_assoc,
        List.cons_append, List.nil_append, Nat.add_assoc] at this ⊢
      exact this
    simp only [strtok_r_bytes, cstr_at_append pre _ tail hnul, h1, hc1, hxn, if_false, hcs,
      takeWhile_append_stop _ _ d r hnd hdd, hc2, hd, hset]

/-- The function `strtok_r` on a buffer does what `strtok_r` does on the
string scanned: for a buffer that holds `pre`, then the string `s`, its
terminator and `tail`, scanning from the start of `s` yields the token and
leaves at the save offset the rest that the function on strings yields. -/
theorem strtok_r_bytes_spec (pre s tail : List Char) (d : Char) (hd : d ≠ NUL)
    (hnul : NUL ∉ s) :
    ∃ pre2,
      (strtok_r_bytes (pre ++ s ++ NUL :: tail) pre.length [d]).1 =
        pre2 ++ (strtok_r s [d]).2 ++ NUL :: tail ∧
      pre2.length = (strtok_r_bytes (pre ++ s ++ NUL :: tail) pre.length [d]).2.2 ∧
      NUL ∉ (strtok_r s [d]).2 ∧
      (strtok_r_bytes (pre ++ s ++ NUL :: tail) pre.length [d]).2.1.map
        (cstr_at (strtok_r_bytes (pre ++ s ++ NUL :: tail) pre.length [d]).1) =
        (strtok_r s [d]).1 := by
  obtain ⟨ds, hds, hshape⟩ := token_shape d s
  rcases hshape with h | ⟨t, hne, hfree, h | ⟨r, h⟩⟩
  · rw [h, strtok_r_bytes_delims pre ds tail d hds hd, strtok_r_delims d ds hds]
    exact ⟨pre ++ ds, by simp, by simp, by simp, rfl⟩
  · subst h
    have hnt : NUL ∉ t := fun hm => hnul (List.mem_append_right ds hm)
    rw [strtok_r_bytes_last pre ds t tail d hds hd hne hfree hnt,
      strtok_r_last d ds t hds hne hfree]
    refine ⟨pre ++ ds ++ t, by simp, by simp [Nat.add_assoc], by simp, ?_⟩
    have := cstr_at_append (pre ++ ds) t tail hnt
    simp only [List.length_append, List.append_assoc] at this
    simp only [Option.map_some', List.append_assoc, this]
  · subst h
    have hnt : NUL ∉ t := fun hm =>
      hnul (List.mem_append_left _ (List.mem_append_right ds hm))
    have hnr : NUL ∉ r := fun hm =>
      hnul (List.mem_append_right _ (List.mem_cons_of_mem d hm))
    rw [strtok_r_bytes_token pre ds t r tail d hds hd hne hfree hnt hnr,
      strtok_r_token d ds t r hds hne hfree]
    refine ⟨pre ++ ds ++ t ++ [NUL], rfl, by simp [Nat.add_assoc], hnr, ?_⟩
    have := cstr_at_append (pre ++ ds) t (r ++ NUL :: tail) hnt
    simp only [List.length_append, List.append_assoc] at this
    simp only [Option.map_some', List.append_assoc, List.singleton_append,
      List.cons_append, List.nil_append, this]

/-! ## The heap -/

theorem Heap.bytes_set_same (h : Heap) (b : Nat) (v : List Char) (hb : b < h.length) :
    Heap.bytes (h.set b v) b = v := by
  simp [Heap.bytes, List.getD_eq_getElem?_getD, hb]

theorem Heap.bytes_set_other (h : Heap) (b b2 : Nat) (v : List Char) (hne : b2 ≠ b) :
    Heap.bytes (h.set b v) b2 = Heap.bytes h b2 := by
  simp [Heap.bytes, List.getD_eq_getElem?_getD, List.getElem?_set, Ne.symm hne]

theorem Heap.bytes_append_old (h : Heap) (v : List Char) (b : Nat) (hb : b < h.length) :
    Heap.bytes (h ++ [v]) b = Heap.bytes h b := by
  simp [Heap.bytes, List.getD_eq_getElem?_getD, List.getElem?_append_left hb]

theorem Heap.bytes_append_new (h : Heap) (v : List Char) :
    Heap.bytes (h ++ [v]) h.length = v := by
  simp [Heap.bytes, List.getD_eq_getElem?_getD]

theorem cstr_at_no_nul (bytes : List Char) (off : Nat) : NUL ∉ cstr_at bytes off := by
  intro h
  have := List.mem_takeWhile_imp h
  simp at this

/-- One call of `strtok_r` on the heap, for a save pointer at a string `s`
held in buffer `b`: the token and the rest are those of `strtok_r` on `s`,
the save pointer stays in `b`, and no other buffer is written. -/
theorem strtok_r_heap_spec (h : Heap) (b : Nat) (pre s tail : List Char) (d : Char)
    (hd : d ≠ NUL) (hb : b < h.length) (hbytes : h.bytes b = pre ++ s ++ NUL :: tail)
    (hnul : NUL ∉ s) :
    ∃ pre2,
      (strtok_r_heap h ⟨b, pre.length⟩ [d]).1.bytes b =
        pre2 ++ (strtok_r s [d]).2 ++ NUL :: tail ∧
      (strtok_r_heap h ⟨b, pre.length⟩ [d]).2.2 = ⟨b, pre2.length⟩ ∧
      NUL ∉ (strtok_r s [d]).2 ∧
      (strtok_r_heap h ⟨b, pre.length⟩ [d]).2.1.map
        (strtok_r_heap h ⟨b, pre.length⟩ [d]).1.cstr = (strtok_r s [d]).1 ∧
      (strtok_r_heap h ⟨b, pre.length⟩ [d]).1.length = h.length ∧
      ∀ b2, b2 ≠ b →
        (strtok_r_heap h ⟨b, pre.length⟩ [d]).1.bytes b2 = h.bytes b2 := by
  obtain ⟨pre2, h1, h2, h3, h4⟩ := strtok_r_bytes_spec pre s tail d hd hnul
  refine ⟨pre2, ?_, ?_, h3, ?_, ?_, ?_⟩
  · simp only [strtok_r_heap, hbytes, Heap.bytes_set_same h b _ hb, h1]
  · simp only [strtok_r_heap, hbytes, h2]
  · simp only [strtok_r_heap, hbytes]
    rw [← h4]
    cases (strtok_r_bytes (pre ++ s ++ NUL :: tail) pre.length [d]).2.1 with
    | none => rfl
    | some o =>
      simp only [Option.map_some', Heap.cstr, Heap.bytes_set_same h b _ hb]
  · simp [strtok_r_heap]
  · intro b2 hb2
    simp only [strtok_r_heap]
    exact Heap.bytes_set_other h b b2 _ hb2

/-- The loop on the heap has the outcome of the loop on strings, and writes
only into the buffer of its save pointer. -/
theorem build_state_loop_heap_spec (ns : NodeStates) (fuel : Nat) (h : Heap) (b : Nat)
    (pre s tail : List Char) (tokp : Option Ptr) (acc : List Nat)
    (hb : b < h.length) (hbytes : h.bytes b = pre ++ s ++ NUL :: tail) (hnul : NUL ∉ s) :
    (build_state_loop_heap ns fuel h tokp ⟨b, pre.length⟩ acc).1 =
      build_state_loop ns fuel (tokp.map h.cstr) s acc ∧
    (build_state_loop_heap ns fuel h tokp ⟨b, pre.length⟩ acc).2.length = h.length ∧
    ∀ b2, b2 ≠ b →
      (build_state_loop_heap ns fuel h tokp ⟨b, pre.length⟩ acc).2.bytes b2 = h.bytes b2 := by
  induction fuel generalizing h pre s tokp acc with
  | zero =>
    cases tokp with
    | none => simp [build_state_loop_heap, build_state_loop]
    | some st => simp [build_state_loop_heap, build_state_loop]
  | succ n ih =>
    cases tokp with
    | none => simp [build_state_loop_heap, build_state_loop]
    | some st =>
      simp only [build_state_loop_heap, build_state_loop, Option.map_some']
      by_cases hrc : ( _parse_state ns (h.cstr st) 0).rc = SLURM_SUCCESS
      · simp only [hrc, ne_eq, not_true_eq_false, if_false]
        obtain ⟨pre2, h1, h2, h3, h4, h5, h6⟩ :=
          strtok_r_heap_spec h b pre s tail ',' (by decide) hb hbytes hnul
        have := ih (strtok_r_heap h ⟨b, pre.length⟩ [',']).1 pre2 (strtok_r s [',']).2
          (strtok_r_heap h ⟨b, pre.length⟩ [',']).2.1
          (acc ++ [( _parse_state ns (h.cstr st) 0).states]) (by rw [h5]; exact hb) h1 h3
        rw [h2]
        rw [h4] at this
        refine ⟨this.1, by rw [this.2.1, h5], ?_⟩
        intro b2 hb2
        rw [this.2.2 b2 hb2, h6 b2 hb2]
      · simp [hrc]

/-- The function `_build_state_list` on the heap: its outcome is that of
`_build_state_list` on the string at the pointer, and it leaves every buffer
that was in the heap as it was. -/
theorem build_state_list_heap_spec (ns : NodeStates) (h : Heap) (p : Ptr) :
    ( _build_state_list_heap ns h (some p)).1 = _build_state_list ns (some (h.cstr p)) ∧
    h.length ≤ ( _build_state_list_heap ns h (some p)).2.length ∧
    ∀ b, b < h.length → ( _build_state_list_heap ns h (some p)).2.bytes b = h.bytes b := by
  by_cases hall : strcasecmp (h.cstr p) "all".toList = 0
  · simp only [_build_state_list_heap, _build_state_list, if_pos hall]
    exact ⟨trivial, le_refl _, fun _ _ => trivial⟩
  · have hnul : NUL ∉ h.cstr p := cstr_at_no_nul _ _
    have hbytes : Heap.bytes (h ++ [h.cstr p ++ [NUL]]) h.length =
        [] ++ h.cstr p ++ NUL :: [] := by
      rw [Heap.bytes_append_new]; simp
    have hb : h.length < (h ++ [h.cstr p ++ [NUL]]).length := by simp
    have hcopy : Heap.cstr (h ++ [h.cstr p ++ [NUL]]) ⟨h.length, 0⟩ = h.cstr p := by
      have := cstr_at_append [] (h.cstr p) [] hnul
      show cstr_at (Heap.bytes (h ++ [h.cstr p ++ [NUL]]) h.length) 0 = h.cstr p
      rw [hbytes]
      exact this
    obtain ⟨pre2, h1, h2, h3, h4, h5, h6⟩ :=
      strtok_r_heap_spec (h ++ [h.cstr p ++ [NUL]]) h.length [] (h.cstr p) [] ','
        (by decide) hb hbytes hnul
    simp only [List.length_nil] at h1 h2 h4 h5 h6
    have hloop := build_state_loop_heap_spec ns ((h.cstr p).length + 1)
      (strtok_r_heap (h ++ [h.cstr p ++ [NUL]]) ⟨h.length, 0⟩ [',']).1 h.length pre2
      (strtok_r (h.cstr p) [',']).2 []
      (strtok_r_heap (h ++ [h.cstr p ++ [NUL]]) ⟨h.length, 0⟩ [',']).2.1 []
      (by rw [h5]; exact hb) h1 h3
    rw [h4] at hloop
    obtain ⟨l1, l2, l3⟩ := hloop
    simp only [_build_state_list_heap, _build_state_list, if_neg hall, xstrdup, hcopy, h2]
    rw [← l1]
    have hlen : (build_state_loop_heap ns ((h.cstr p).length + 1)
        (strtok_r_heap (h ++ [h.cstr p ++ [NUL]]) ⟨h.length, 0⟩ [',']).1
        (strtok_r_heap (h ++ [h.cstr p ++ [NUL]]) ⟨h.length, 0⟩ [',']).2.1
        ⟨h.length, pre2.length⟩ []).2.length = h.length + 1 := by
      rw [l2, h5]; simp
    have hframe : ∀ b, b < h.length →
        (build_state_loop_heap ns ((h.cstr p).length + 1)
          (strtok_r_heap (h ++ [h.cstr p ++ [NUL]]) ⟨h.length, 0⟩ [',']).1
          (strtok_r_heap (h ++ [h.cstr p ++ [NUL]]) ⟨h.length, 0⟩ [',']).2.1
          ⟨h.length, pre2.length⟩ []).2.bytes b = h.bytes b := by
      intro b hlt
      rw [l3 b (by omega), h6 b (by omega), Heap.bytes_append_old h _ b hlt]
    revert hlen hframe
    cases build_state_loop_heap ns ((h.cstr p).length + 1)
        (strtok_r_heap (h ++ [h.cstr p ++ [NUL]]) ⟨h.length, 0⟩ [',']).1
        (strtok_r_heap (h ++ [h.cstr p ++ [NUL]]) ⟨h.length, 0⟩ [',']).2.1
        ⟨h.length, pre2.length⟩ [] with
    | mk o h1 =>
      intro hlen hframe
      cases o <;> exact ⟨rfl, by simp only at hlen ⊢; omega, hframe⟩

/-! ## Running the compilers twice: both halves -/

/-- C12, as the code has it. A second run of `_parse_format` on the buffer as
the first run left it returns the same real-field columns, the same flags
and leaves the buffer as it is. The whole format list is the same when the
template begins with `%` or has no `%`; otherwise the first run has removed
the literal text from the buffer, and the second list is the first without
its literal entry.

For `_build_state_list`, on the heap: a call on a pointer into a buffer of
the heap leaves the string at that pointer as it was (only the copy made by
`xstrdup` is written by `strtok_r`), so a second call on the heap that the
first one left has the same outcome as the first; that outcome is the one of
`_build_state_list` on the string. -/
theorem parse_format_twice :
    (∀ (fmt : CStr) (p : Params), ∃ r1 r2,
      _parse_format (some fmt) p = Outcome.returned r1 ∧
      _parse_format (some r1.format) r1.params = Outcome.returned r2 ∧
      real_columns r2.params.format_list = real_columns r1.params.format_list ∧
      (charAt fmt 0 = '%' ∨ '%' ∉ fmt →
        r2.params.format_list = r1.params.format_list) ∧
      (charAt fmt 0 ≠ '%' ∧ '%' ∈ fmt →
        r1.params.format_list =
          ⟨FieldKind.literal, 0, false, fmt.takeWhile (fun c => !(c == '%'))⟩ ::
            r2.params.format_list) ∧
      r2.params.match_flags = r1.params.match_flags ∧
      r2.format = r1.format) ∧
    (∀ (ns : NodeStates) (h : Heap) (str : Ptr), str.buf < h.length →
      ( _build_state_list_heap ns h (some str)).2.cstr str = h.cstr str ∧
      ( _build_state_list_heap ns ( _build_state_list_heap ns h (some str)).2 (some str)).1 =
        ( _build_state_list_heap ns h (some str)).1 ∧
      ( _build_state_list_heap ns h (some str)).1 =
        _build_state_list ns (some (h.cstr str))) := by
  constructor
  · intro fmt p
    obtain ⟨hb1, hb2, hb3⟩ := buffer_after fmt
    have e1 := parse_format_eq fmt p
    have e2 := parse_format_eq
      (if '%' ∈ fmt then fmt.dropWhile (fun c => !(c == '%')) else fmt)
      ⟨literal_entry fmt ++ (field_tokens fmt).filterMap token_spec,
        (field_tokens fmt).foldl token_flags p.match_flags,
        p.stderr ++ (field_tokens fmt).filterMap token_diag⟩
    rw [hb1, hb2, hb3] at e2
    have hlit : List.filter (fun c => decide (c.kind ≠ FieldKind.literal)) (literal_entry fmt)
        = [] := real_columns_literal_entry fmt
    refine ⟨_, _, e1, e2, ?_, ?_, ?_, ?_, rfl⟩
    · simp only [real_columns, List.filter_append, hlit]
      by_cases hm : '%' ∈ fmt
      · simp [hm]
      · simp only [hm, if_false, hlit]
    · intro h
      show (if '%' ∈ fmt then [] else literal_entry fmt) ++ _ = literal_entry fmt ++ _
      rcases h with h | h
      · have : literal_entry fmt = [] := by simp [literal_entry, h]
        rw [this]
        by_cases hm : '%' ∈ fmt <;> simp [hm]
      · simp [h]
    · rintro ⟨h0, hm⟩
      show literal_entry fmt ++ _ = _ :: ((if '%' ∈ fmt then [] else literal_entry fmt) ++ _)
      simp [hm, literal_entry, h0]
    · exact token_flags_twice _ _
  · intro ns h str hstr
    obtain ⟨r1, l1, f1⟩ := build_state_list_heap_spec ns h str
    obtain ⟨r2, _, _⟩ := build_state_list_heap_spec ns
      ( _build_state_list_heap ns h (some str)).2 str
    have hsame : ( _build_state_list_heap ns h (some str)).2.cstr str = h.cstr str := by
      simp only [Heap.cstr, f1 str.buf hstr]
    exact ⟨hsame, by rw [r2, hsame, r1], r1⟩

theorem parse_format_twice_witness :
    (1 : Nat) < (["xx".toList, "IDLE,down\x00zz".toList] : Heap).length ∧
    (( _build_state_list_heap sample_states ["xx".toList, "IDLE,down\x00zz".toList]
        (some ⟨1, 0⟩)).2.cstr ⟨1, 0⟩ =
      Heap.cstr ["xx".toList, "IDLE,down\x00zz".toList] ⟨1, 0⟩ ∧
    ( _build_state_list_heap sample_states
        ( _build_state_list_heap sample_states ["xx".toList, "IDLE,down\x00zz".toList]
          (some ⟨1, 0⟩)).2 (some ⟨1, 0⟩)).1 =
      ( _build_state_list_heap sample_states ["xx".toList, "IDLE,down\x00zz".toList]
        (some ⟨1, 0⟩)).1 ∧
    ( _build_state_list_heap sample_states ["xx".toList, "IDLE,down\x00zz".toList]
        (some ⟨1, 0⟩)).1 =
      _build_state_list sample_states
        (some (Heap.cstr ["xx".toList, "IDLE,down\x00zz".toList] ⟨1, 0⟩))) ∧
    _build_state_list_heap sample_states ["xx".toList, "IDLE,down\x00zz".toList]
        (some ⟨1, 0⟩) =
      (Outcome.returned (some [2, 0]),
        ["xx".toList, "IDLE,down\x00zz".toList, "IDLE\x00down\x00".toList]) ∧
    _build_state_list_heap sample_states
        ["xx".toList, "IDLE,down\x00zz".toList, "IDLE\x00down\x00".toList] (some ⟨1, 0⟩) =
      (Outcome.returned (some [2, 0]),
        ["xx".toList, "IDLE,down\x00zz".toList, "IDLE\x00down\x00".toList,
          "IDLE\x00down\x00".toList]) :=
  ⟨by decide,
    parse_format_twice.2 sample_states ["xx".toList, "IDLE,down\x00zz".toList] ⟨1, 0⟩
      (by decide),
    by decide, by decide⟩

end Sinfo
